import Mathlib

/-!
Verification of `gotree` / `pop`: materializing a tree description on disk.

The two Go packages of the repository (`gotree`, file `gotree.go`, and `pop`,
file `pop.go`) walk an in-memory description of a directory tree and create the
directories and files it names.  The code is embedded as state-passing
functions over a model of the filesystem; the calls into the Go standard
library (`path.Join`, `os.MkdirAll`, `os.OpenFile`, `os.RemoveAll`,
`ioutil.TempDir`, `strings.HasSuffix`) are modelled from their documentation.

Assumptions of the filesystem model: no symbolic links, no permission checks,
no failure of the system other than the ones decided by the directory
structure, path strings resolved lexically against the working directory.
Lexical resolution is what the system does for every path that went through
`path.Join`, and for a root path without `.` or `..` elements; the properties
that depend on how the root itself is walked or removed are stated for such
roots.  An `io.Reader` given by the caller is a source that, each time it is
read to its end, yields finitely many bytes and then stops at the end of its
input or with a read error; what it yields the next time is part of its state.
-/

/-! ## Strings and paths -/

namespace strings

/-- Go `strings.HasSuffix(s, "/")`: the last byte of `s` is a slash. -/
def HasSuffixSlash (s : String) : Bool :=
  s.data.getLast? == some '/'

end strings

namespace path

/-- Split a byte sequence at every `/`; the pieces may be empty. -/
def splitSlash : List Char → List (List Char)
  | [] => [[]]
  | c :: cs =>
    match splitSlash cs with
    | [] => if c = '/' then [[], []] else [[c]]
    | w :: ws => if c = '/' then [] :: w :: ws else (c :: w) :: ws

/-- One step of the lexical processing of `path.Clean`: `out` is the stack of
elements kept so far (innermost first), `rooted` tells whether the path starts
with a slash. -/
def cleanStep (rooted : Bool) (out : List (List Char)) (el : List Char) : List (List Char) :=
  if el = [] ∨ el = ['.'] then out
  else if el = ['.', '.'] then
    match out with
    | [] => if rooted then [] else [el]
    | top :: rest => if top = ['.', '.'] then el :: top :: rest else rest
  else el :: out

/-- The elements of the cleaned path, outermost first. -/
def cleanElems (rooted : Bool) (els : List (List Char)) : List (List Char) :=
  (els.foldl (cleanStep rooted) []).reverse

/-- Join elements with single slashes. -/
def joinSlash : List (List Char) → List Char
  | [] => []
  | [e] => e
  | e :: es => e ++ '/' :: joinSlash es

/-- Go `path.Clean`: collapse repeated slashes, drop `.` elements, resolve inner
`..` elements, drop `..` at the start of a rooted path; the empty result is
`"."`. -/
def Clean (p : String) : String :=
  let rooted : Bool := p.data.head? == some '/'
  let body := joinSlash (cleanElems rooted (splitSlash p.data))
  if rooted then String.mk ('/' :: body)
  else if body = [] then "." else String.mk body

/-- Go `path.Join` of two elements: empty elements are ignored, the rest is
joined with a slash and cleaned; the join of two empty elements is empty. -/
def Join (a b : String) : String :=
  if a = "" ∧ b = "" then ""
  else if a = "" then Clean b
  else if b = "" then Clean a
  else Clean (String.mk (a.data ++ '/' :: b.data))

/-- The last element of the path is `.`: Go `endsWithDot` of `os.RemoveAll`
(the path is `.` or ends in `/.`). -/
def lastIsDot (p : String) : Bool :=
  (splitSlash p.data).getLast? == some ['.']

/-- No element of the path is `..`. -/
def NoParent (p : String) : Bool :=
  (splitSlash p.data).all fun el => el != ['.', '.']

end path

/-! ## The filesystem -/

/-- What a path of the filesystem holds: a directory, or a regular file with
its bytes. -/
inductive Entry where
  | dir : Entry
  | file (data : String) : Entry
  deriving DecidableEq, Repr

/-- An absolute location: the names from the filesystem root down. -/
abbrev Loc := List String

/-- The state of the filesystem: the working directory of the process and what
every absolute location holds. -/
structure FS where
  cwd : Loc
  ent : Loc → Option Entry

namespace FS

/-- Replace what location `p` holds. -/
def set (fs : FS) (p : Loc) (e : Option Entry) : FS :=
  { fs with ent := fun q => if q = p then e else fs.ent q }

/-- One element of a path walked from location `cur`. -/
def walkStep (cur : Loc) (el : List Char) : Loc :=
  if el = [] ∨ el = ['.'] then cur
  else if el = ['.', '.'] then cur.dropLast
  else cur ++ [String.mk el]

/-- The location a path string names: a rooted path starts at the filesystem
root, any other at the working directory.  The walk is lexical: `..` drops the
last name whether or not that name exists. -/
def resolve (fs : FS) (p : String) : Loc :=
  let start : Loc := if p.data.head? == some '/' then [] else fs.cwd
  (path.splitSlash p.data).foldl walkStep start

/-- The filesystem without location `l` and everything below it. -/
def without (fs : FS) (l : Loc) : FS :=
  { fs with ent := fun q => if l.isPrefixOf q then none else fs.ent q }

/-- The filesystem with everything inside the filesystem root gone. -/
def emptied (fs : FS) : FS :=
  { fs with ent := fun q => if q = [] then fs.ent [] else none }

/-- Location `q` holds a regular file. -/
def isFile (fs : FS) (q : Loc) : Bool :=
  match fs.ent q with
  | some (Entry.file _) => true
  | _ => false

/-- Every entry other than the filesystem root lies in a directory. -/
def WF (fs : FS) : Prop :=
  ∀ p : Loc, p ≠ [] → fs.ent p ≠ none → fs.ent p.dropLast = some Entry.dir

/-- Directory `p` has no entry directly inside it. -/
def EmptyDir (fs : FS) (p : Loc) : Prop :=
  fs.ent p = some Entry.dir ∧ ∀ name : String, fs.ent (p ++ [name]) = none

end FS

/-- The errors the two packages return, by the message they format. -/
inductive Error where
  | rootNil : Error
  | cannotCreateDir (p : String) : Error
  | cannotCreateFile (p : String) : Error
  | dirContentInvalid : Error
  | fileContentInvalid (p : String) : Error
  | cannotWriteFile (p : String) : Error
  | cannotDeleteRoot (p : String) : Error
  | cannotGenerateRoot : Error
  deriving DecidableEq, Repr

namespace os

/-- Go `os.MkdirAll` on a location given innermost name first: a directory is
left alone, a regular file is an error, a missing location is created after
its parents. -/
def mkdirAllRev (fs : FS) : List String → Option FS
  | [] =>
    match fs.ent [] with
    | some Entry.dir => some fs
    | some (Entry.file _) => none
    | none => some (fs.set [] (some Entry.dir))
  | c :: rest =>
    match fs.ent (c :: rest).reverse with
    | some Entry.dir => some fs
    | some (Entry.file _) => none
    | none =>
      match mkdirAllRev fs rest with
      | none => none
      | some fs1 => some (fs1.set (c :: rest).reverse (some Entry.dir))

/-- Go `os.MkdirAll(path, 0700)`; `none` is a non-nil error.  Exact for paths
in which no `..` element follows a name. -/
def MkdirAll (fs : FS) (p : String) : Option FS :=
  mkdirAllRev fs (fs.resolve p).reverse

/-- Go `os.OpenFile(path, O_WRONLY|O_CREATE|O_EXCL, 0600)`: fails when the path
exists or its parent is not a directory, else creates an empty regular file.
The handle is the location of the file. -/
def OpenFileExcl (fs : FS) (p : String) : Option (Loc × FS) :=
  let l := fs.resolve p
  match fs.ent l with
  | some _ => none
  | none =>
    if l = [] then none
    else
      match fs.ent l.dropLast with
      | some Entry.dir => some (l, fs.set l (some (Entry.file "")))
      | _ => none

/-- Writing `data` to a handle of a file just created empty. -/
def WriteString (fs : FS) (h : Loc) (data : String) : FS :=
  fs.set h (some (Entry.file data))

/-- Go `os.RemoveAll(path)`, as whether it returned nil and the filesystem it
leaves.  The empty path does nothing; a path whose last element is `.` is
refused (`EINVAL`) before anything is removed; the filesystem root loses what
it holds but cannot be removed itself; below a regular file the removal fails;
otherwise the location and everything below it is gone.  Exact for paths that
end in `.` and for paths without `.` or `..` elements. -/
def RemoveAll (fs : FS) (p : String) : Bool × FS :=
  if p = "" then (true, fs)
  else if path.lastIsDot p then (false, fs)
  else if fs.resolve p = [] then (false, fs.emptied)
  else if (fs.resolve p).dropLast.inits.any fs.isFile then (false, fs)
  else (true, fs.without (fs.resolve p))

/-- Outcome of Go `os.Mkdir`: the new state, an error for which `os.IsExist`
holds, or another error. -/
inductive MkdirResult where
  | ok (fs : FS) : MkdirResult
  | exist : MkdirResult
  | failed : MkdirResult

/-- Go `os.Mkdir(path, 0700)`: creates one directory inside an existing one. -/
def Mkdir (fs : FS) (p : String) : MkdirResult :=
  let l := fs.resolve p
  match fs.ent l with
  | some _ => MkdirResult.exist
  | none =>
    if l = [] then MkdirResult.failed
    else
      match fs.ent l.dropLast with
      | some Entry.dir => MkdirResult.ok (fs.set l (some Entry.dir))
      | _ => MkdirResult.failed

end os

namespace ioutil

/-- Go `ioutil.TempDir("", prefix)`: `tmp` is `os.TempDir()` and `suffixes` the
sequence of random suffixes tried; a name that exists is skipped, any other
failure or the end of the tries is an error (`none`). -/
def TempDir (tmp pfx : String) : List String → FS → Option (String × FS)
  | [], _ => none
  | s :: rest, fs =>
    let try_ := path.Join tmp (pfx ++ s)
    match os.Mkdir fs try_ with
    | os.MkdirResult.exist => TempDir tmp pfx rest fs
    | os.MkdirResult.failed => none
    | os.MkdirResult.ok fs1 => some (try_, fs1)

end ioutil

/-- The readers the caller hands over, by number: for each one the outcomes of
the successive times it is read to its end, each the bytes it yields and
whether it stopped at the end of its input (`true`) or with a read error
(`false`).  A reader with no outcome left is at its end.  Readers with
different numbers are independent: reading one leaves the others as they
are. -/
abbrev Readers := Nat → List (String × Bool)

/-- What reading reader `r` to its end gives now. -/
def Readers.next (rd : Readers) (r : Nat) : String × Bool :=
  (rd r).headD ("", true)

/-- The readers after reader `r` was read to its end once more. -/
def Readers.drain (rd : Readers) (r : Nat) : Readers :=
  fun k => if k = r then (rd k).tail else rd k

namespace io

/-- An `io.Reader` value inside the program: a buffer made on the spot with its
bytes, or one of the readers of the caller. -/
inductive Reader where
  | fresh (data : String) : Reader
  | caller (r : Nat) : Reader

/-- Go `io.Copy(f, r)` to a file just created empty, as whether it returned nil,
the filesystem and the readers it leaves: the file gets every byte the reader
yields until its end or its read error, and a reader of the caller has been
read. -/
def Copy (fs : FS) (f : Loc) (src : Reader) (rd : Readers) : Bool × FS × Readers :=
  match src with
  | Reader.fresh data => (true, os.WriteString fs f data, rd)
  | Reader.caller r => ((rd.next r).2, os.WriteString fs f (rd.next r).1, rd.drain r)

end io

/-! ## Package `gotree` -/

namespace gotree

mutual
/-- The dynamic value of the `Content` field (`interface{}`): `nil`, a string,
a `File`, a `[]File`, or a value of any other type. -/
inductive Content where
  | nil : Content
  | str (s : String) : Content
  | file (f : File) : Content
  | files (l : List File) : Content
  | other : Content

/-- Go `type File struct { Path string; Content interface{} }`. -/
inductive File where
  | mk (Path : String) (Content : Content) : File
end

/-- Field `Path`. -/
def File.Path : File → String
  | .mk p _ => p

/-- Field `Content`. -/
def File.Content : File → Content
  | .mk _ c => c

/-- Go `createDir`. -/
def createDir (p : String) (fs : FS) : Option Error × FS :=
  match os.MkdirAll fs p with
  | none => (some (Error.cannotCreateDir p), fs)
  | some fs1 => (none, fs1)

/-- Go `generateFile`. -/
def generateFile (root : String) (file : File) (fs : FS) : Option Error × FS :=
  let filePath := path.Join root file.Path
  match os.OpenFileExcl fs filePath with
  | none => (some (Error.cannotCreateFile filePath), fs)
  | some (f, fs1) =>
    match file.Content with
    | Content.nil => (none, fs1)
    | Content.str content => (none, os.WriteString fs1 f content)
    | _ => (some (Error.fileContentInvalid filePath), fs1)

mutual
/-- Go `generate`. -/
def generate (root : String) : File → FS → Option Error × FS
  | .mk p c, fs =>
    if strings.HasSuffixSlash p then generateDir root p c fs
    else generateFile root (.mk p c) fs

/-- Go `generateDir`, on the two fields `file.Path` and `file.Content`. -/
def generateDir (root : String) (p : String) : Content → FS → Option Error × FS
  | c, fs =>
    match createDir (path.Join root p) fs with
    | (some err, fs1) => (some err, fs1)
    | (none, fs1) =>
      match c with
      | .nil => (none, fs1)
      | .file content => generate (path.Join root p) content fs1
      | .files content => generateFiles (path.Join root p) content fs1
      | _ => (some Error.dirContentInvalid, fs1)

/-- The loop `for _, file := range files` with its early return. -/
def generateFiles (root : String) : List File → FS → Option Error × FS
  | [], fs => (none, fs)
  | file :: rest, fs =>
    match generate root file fs with
    | (some err, fs1) => (some err, fs1)
    | (none, fs1) => generateFiles root rest fs1
end

/-- Go `GenerateFromRoot`. -/
def GenerateFromRoot (root : String) (files : List File) (fs : FS) : Option Error × FS :=
  if root = "" then (some Error.rootNil, fs)
  else
    match createDir root fs with
    | (some err, fs1) => (some err, fs1)
    | (none, fs1) => generateFiles root files fs1

/-- Go `Generate`: `tmp` and `suffixes` are the temporary directory of the
system and the random suffixes `ioutil.TempDir` draws. -/
def Generate (tmp : String) (suffixes : List String) (files : List File) (fs : FS) :
    String × Option Error × FS :=
  match ioutil.TempDir tmp "gotree" suffixes fs with
  | none => ("", some Error.cannotGenerateRoot, fs)
  | some (root, fs1) => (root, GenerateFromRoot root files fs1)

mutual
/-- The nodes the materialization of `file` under `root` visits when nothing
fails, each with its parent directory, in the order of the calls of
`generate`. -/
def nodes (root : String) : File → List (String × File)
  | .mk p c =>
    (root, .mk p c) ::
      (if strings.HasSuffixSlash p then nodesContent (path.Join root p) c else [])

/-- The nodes inside the content of a directory node. -/
def nodesContent (dirPath : String) : Content → List (String × File)
  | .file content => nodes dirPath content
  | .files content => nodesFiles dirPath content
  | _ => []

/-- The nodes of a list of siblings. -/
def nodesFiles (root : String) : List File → List (String × File)
  | [] => []
  | file :: rest => nodes root file ++ nodesFiles root rest
end

/-- A node is a file node when its path does not end in a slash. -/
def isFileNode (n : File) : Bool := !strings.HasSuffixSlash n.Path

/-- What `generate` does for the node itself, before it descends into the
content of a directory: a file node is created and written, a directory node is
created and the type of its content checked. -/
def visit (d : String) (n : File) (fs : FS) : Option Error × FS :=
  if strings.HasSuffixSlash n.Path then
    match createDir (path.Join d n.Path) fs with
    | (some err, fs1) => (some err, fs1)
    | (none, fs1) =>
      match n.Content with
      | Content.nil => (none, fs1)
      | Content.file _ => (none, fs1)
      | Content.files _ => (none, fs1)
      | _ => (some Error.dirContentInvalid, fs1)
  else generateFile d n fs

/-- Visit the nodes of a list in order, stopping at the first error. -/
def visitAll : List (String × File) → FS → Option Error × FS
  | [], fs => (none, fs)
  | (d, n) :: rest, fs =>
    match visit d n fs with
    | (some err, fs1) => (some err, fs1)
    | (none, fs1) => visitAll rest fs1

end gotree

/-! ## Package `pop` -/

namespace pop

mutual
/-- The dynamic value of an entry of a `Corn` (`interface{}`): `nil`, a string,
an `io.Reader` (one of the readers of the caller), a `Corn`, or any other
value. -/
inductive Content where
  | nil : Content
  | str (s : String) : Content
  | reader (r : Nat) : Content
  | corn (l : List Item) : Content
  | other : Content

/-- One key of a `Corn` with its value. -/
inductive Item where
  | mk (name : String) (content : Content) : Item
end

/-- Go `type Corn map[string]interface{}`, as the sequence of entries in the
order in which `range` visits them. -/
abbrev Corn := List Item

/-- The key of an entry. -/
def Item.name : Item → String
  | .mk n _ => n

/-- The value of an entry. -/
def Item.content : Item → Content
  | .mk _ c => c

/-- Go `createDir`. -/
def createDir (p : String) (fs : FS) : Option Error × FS :=
  match os.MkdirAll fs p with
  | none => (some (Error.cannotCreateDir p), fs)
  | some fs1 => (none, fs1)

/-- Go `contentToReader`; `none` is the error for an unsupported type. -/
def contentToReader : Content → Option io.Reader
  | .nil => some (io.Reader.fresh "")
  | .str v => some (io.Reader.fresh v)
  | .reader r => some (io.Reader.caller r)
  | _ => none

/-- Go `generateFile`. -/
def generateFile (root : String) (name : String) (content : Content) (fs : FS)
    (rd : Readers) : Option Error × FS × Readers :=
  let filePath := path.Join root name
  match os.OpenFileExcl fs filePath with
  | none => (some (Error.cannotCreateFile filePath), fs, rd)
  | some (f, fs1) =>
    match contentToReader content with
    | none => (some (Error.fileContentInvalid filePath), fs1, rd)
    | some r =>
      match io.Copy fs1 f r rd with
      | (false, fs2, rd2) => (some (Error.cannotWriteFile filePath), fs2, rd2)
      | (true, fs2, rd2) => (none, fs2, rd2)

mutual
/-- Go `generate`. -/
def generate (root : String) : Item → FS → Readers → Option Error × FS × Readers
  | .mk name content, fs, rd =>
    if strings.HasSuffixSlash name then generateDir root name content fs rd
    else generateFile root name content fs rd

/-- Go `generateDir`. -/
def generateDir (root : String) (name : String) :
    Content → FS → Readers → Option Error × FS × Readers
  | content, fs, rd =>
    match createDir (path.Join root name) fs with
    | (some err, fs1) => (some err, fs1, rd)
    | (none, fs1) =>
      match content with
      | .nil => (none, fs1, rd)
      | .corn content => generateCorn (path.Join root name) content fs1 rd
      | _ => (some Error.dirContentInvalid, fs1, rd)

/-- The loop `for name, content := range files` with its early return. -/
def generateCorn (root : String) : List Item → FS → Readers → Option Error × FS × Readers
  | [], fs, rd => (none, fs, rd)
  | item :: rest, fs, rd =>
    match generate root item fs rd with
    | (some err, fs1, rd1) => (some err, fs1, rd1)
    | (none, fs1, rd1) => generateCorn root rest fs1 rd1
end

/-- Go `GenerateFromRoot`. -/
def GenerateFromRoot (root : String) (files : Corn) (fs : FS) (rd : Readers) :
    Option Error × FS × Readers :=
  if root = "" then (some Error.rootNil, fs, rd)
  else
    match os.RemoveAll fs root with
    | (false, fs0) => (some (Error.cannotDeleteRoot root), fs0, rd)
    | (true, fs0) =>
      match createDir root fs0 with
      | (some err, fs1) => (some err, fs1, rd)
      | (none, fs1) => generateCorn root files fs1 rd

/-- Go `Generate`. -/
def Generate (tmp : String) (suffixes : List String) (files : Corn) (fs : FS)
    (rd : Readers) : String × Option Error × FS × Readers :=
  match ioutil.TempDir tmp "pop" suffixes fs with
  | none => ("", some Error.cannotGenerateRoot, fs, rd)
  | some (root, fs1) => (root, GenerateFromRoot root files fs1 rd)

end pop

/-! ## Notions used to state the properties, and concrete instances -/

namespace FS

/-- Nothing that exists is removed or changed between `fs` and `fs1`. -/
def Preserves (fs fs1 : FS) : Prop :=
  fs1.cwd = fs.cwd ∧ ∀ (q : Loc) (e : Entry), fs.ent q = some e → fs1.ent q = some e

end FS

namespace gotree

/-- The bytes a file node ends up with: none for `nil`, the string for a
string; any other content is refused. -/
def fileBytes : Content → Option String
  | Content.nil => some ""
  | Content.str s => some s
  | _ => none

/-- The location of a node: its path joined to the parent directory. -/
def nodeLoc (fs : FS) (d : String) (n : File) : Loc :=
  fs.resolve (path.Join d n.Path)

end gotree

/-- A small filesystem for the concrete instances: the directories `/`,
`/home` and `/tmp`, with `/home` as the working directory. -/
def demoFS : FS :=
  { cwd := ["home"]
    ent := fun q => if q = [] ∨ q = ["home"] ∨ q = ["tmp"] then some Entry.dir else none }

/-- Readers for the concrete instances: reader `0` yields the bytes `hi` and is
then at its end, reader `1` yields `par` and then a read error, every other
reader is at its end. -/
def demoReaders : Readers := fun r =>
  if r = 0 then [("hi", true)] else if r = 1 then [("par", false)] else []

namespace gotree

/-- The tree of `TestCreateOneDir`. -/
def testTree : List File :=
  [ File.mk "README.md" (Content.str "# This is the title"),
    File.mk "json/" (Content.files
      [ File.mk "test1.json" (Content.str "\x7b\"key1\":\"value1\",\"key2\":\"value2\"\x7d"),
        File.mk "test2.json" (Content.str "\x7b\"key3\":\"value3\",\"key4\":\"value4\"\x7d") ]),
    File.mk "vendor/" Content.nil,
    File.mk "src/" (Content.files
      [ File.mk "one.cc" (Content.str "int main() \x7b\x7d"),
        File.mk "two.cc" (Content.str "#include <iostream>"),
        File.mk "empty.txt" Content.nil ]),
    File.mk "test/" (Content.file (File.mk ".gitkeep" Content.nil)) ]

end gotree

namespace pop

mutual
/-- The readers of the caller an entry holds, in order. -/
def Item.readers : Item → List Nat
  | .mk _ content => content.readers

/-- The readers of the caller a value holds. -/
def Content.readers : Content → List Nat
  | .reader r => [r]
  | .corn l => readersOf l
  | _ => []

/-- The readers of the caller the entries of a `Corn` hold. -/
def readersOf : List Item → List Nat
  | [] => []
  | item :: rest => item.readers ++ readersOf rest
end

mutual
/-- The entries the materialization of `item` under `root` visits when nothing
fails, each with its parent directory, in the order of the calls of
`generate`. -/
def nodes (root : String) : Item → List (String × Item)
  | .mk name content =>
    (root, .mk name content) ::
      (if strings.HasSuffixSlash name then nodesContent (path.Join root name) content else [])

/-- The entries inside the content of a directory entry. -/
def nodesContent (dirPath : String) : Content → List (String × Item)
  | .corn content => nodesCorn dirPath content
  | _ => []

/-- The entries of a `Corn`, in the order `range` visits them. -/
def nodesCorn (root : String) : List Item → List (String × Item)
  | [] => []
  | item :: rest => nodes root item ++ nodesCorn root rest
end

/-- The content of an entry does not fit its name: a `Corn` under a file name,
a string or a reader under a directory name. -/
def shapeMismatch (item : Item) : Bool :=
  match strings.HasSuffixSlash item.name, item.content with
  | false, Content.corn _ => true
  | true, Content.str _ => true
  | true, Content.reader _ => true
  | _, _ => false

/-- What `generate` does for the entry itself, before it descends into the
content of a directory: a file entry is created and written, a directory entry
is created and the type of its content checked. -/
def visit (d : String) (item : Item) (fs : FS) (rd : Readers) : Option Error × FS × Readers :=
  if strings.HasSuffixSlash item.name then
    match createDir (path.Join d item.name) fs with
    | (some err, fs1) => (some err, fs1, rd)
    | (none, fs1) =>
      match item.content with
      | Content.nil => (none, fs1, rd)
      | Content.corn _ => (none, fs1, rd)
      | _ => (some Error.dirContentInvalid, fs1, rd)
  else generateFile d item.name item.content fs rd

/-- Visit the entries of a list in order, stopping at the first error. -/
def visitAll : List (String × Item) → FS → Readers → Option Error × FS × Readers
  | [], fs, rd => (none, fs, rd)
  | (d, item) :: rest, fs, rd =>
    match visit d item fs rd with
    | (some err, fs1, rd1) => (some err, fs1, rd1)
    | (none, fs1, rd1) => visitAll rest fs1 rd1

/-- The `gotree` content that stands for a `pop` value at the visit of its
entry: a reader is the string of the bytes it yields now, a `Corn` (whose
entries are visited on their own) an empty list. -/
def Content.shallow (rd : Readers) : Content → gotree.Content
  | .nil => gotree.Content.nil
  | .str s => gotree.Content.str s
  | .reader r => gotree.Content.str (rd.next r).1
  | .corn _ => gotree.Content.files []
  | .other => gotree.Content.other

/-- The `gotree` node whose visit does to the filesystem what the visit of a
`pop` entry does. -/
def Item.shallow (rd : Readers) (item : Item) : gotree.File :=
  gotree.File.mk item.name (item.content.shallow rd)

/-- The reader the visit of an entry may read: the one that is its content. -/
def Item.ownReaders (item : Item) : List Nat :=
  match item.content with
  | .reader r => [r]
  | _ => []

/-- The readers the visits of a list of entries may read, in order. -/
def visitReaders (l : List (String × Item)) : List Nat :=
  l.flatMap fun x => x.2.ownReaders

end pop

namespace gotree

/-- The content of a node does not fit its path: a `File` or a `[]File` under a
file path, a string under a directory path. -/
def shapeMismatch (n : File) : Bool :=
  match strings.HasSuffixSlash n.Path, n.Content with
  | false, Content.file _ => true
  | false, Content.files _ => true
  | true, Content.str _ => true
  | _, _ => false

/-- Two file nodes with the same path. -/
def dupFiles : List File :=
  [File.mk "a" (Content.str "x"), File.mk "a" (Content.str "y")]

/-- Two file nodes with the same path and a directory node with a string
content between them. -/
def dupFilesBadDir : List File :=
  [File.mk "a" (Content.str "x"), File.mk "d/" (Content.str "bad"),
    File.mk "a" (Content.str "y")]

end gotree

namespace FS

/-- Location `q` is one that a node called `name` in directory `d` makes: for a
directory name the directory or one of its ancestors, for a file name the
file. -/
def NamedBy (fs : FS) (d name : String) (q : Loc) : Prop :=
  if strings.HasSuffixSlash name then q <+: fs.resolve (path.Join d name)
  else q = fs.resolve (path.Join d name)

end FS

/-- The small filesystem with a directory `/home/r` that holds a regular file
`a` with the bytes `old`. -/
def demoFSWithFile : FS :=
  (demoFS.set ["home", "r"] (some Entry.dir)).set ["home", "r", "a"] (some (Entry.file "old"))

namespace gotree

/-- A description in which a file is made inside a directory node with nil
content. -/
def nilDirThenFile : List File :=
  [File.mk "a/" Content.nil, File.mk "a/b" Content.nil]

end gotree

namespace pop

end pop

namespace pop

end pop

namespace gotree

/-- The content of a node without the nodes inside it. -/
def Content.shallow : Content → Content
  | .file _ => Content.files []
  | .files _ => Content.files []
  | c => c

/-- A node without the nodes inside it, which are visited on their own. -/
def File.shallow (n : File) : File := File.mk n.Path n.Content.shallow

end gotree

/-! ## The traversal as a flat sequence of visits -/

namespace gotree

theorem visitAll_append (l1 l2 : List (String × File)) (fs : FS) :
    visitAll (l1 ++ l2) fs =
      match visitAll l1 fs with
      | (some err, fs1) => (some err, fs1)
      | (none, fs1) => visitAll l2 fs1 := by
  induction l1 generalizing fs with
  | nil => simp [visitAll]
  | cons x l1 ih =>
    obtain ⟨d, n⟩ := x
    simp only [List.cons_append, visitAll]
    rcases h : visit d n fs with ⟨_ | err, fs1⟩
    · exact ih fs1
    · simp

mutual
theorem generate_eq_visitAll (root : String) :
    ∀ (f : File) (fs : FS), generate root f fs = visitAll (nodes root f) fs
  | .mk p c, fs => by
    by_cases hp : strings.HasSuffixSlash p = true
    · simp only [generate, generateDir, nodes, hp, if_true, visitAll, visit, File.Path,
        File.Content]
      rcases h : createDir (path.Join root p) fs with ⟨_ | err, fs1⟩
      · cases c with
        | nil => simp [nodesContent, visitAll]
        | str s => simp [nodesContent, visitAll]
        | other => simp [nodesContent, visitAll]
        | file f1 =>
          simp only [nodesContent]
          exact generate_eq_visitAll (path.Join root p) f1 fs1
        | files l =>
          simp only [nodesContent]
          exact generateFiles_eq_visitAll (path.Join root p) l fs1
      · simp
    · simp only [generate, nodes, hp, visitAll, visit, File.Path]
      rcases h : generateFile root (File.mk p c) fs with ⟨_ | err, fs1⟩ <;> simp

theorem generateFiles_eq_visitAll (root : String) :
    ∀ (l : List File) (fs : FS), generateFiles root l fs = visitAll (nodesFiles root l) fs
  | [], fs => by simp [generateFiles, nodesFiles, visitAll]
  | f :: l, fs => by
    simp only [generateFiles, nodesFiles, visitAll_append]
    rw [generate_eq_visitAll root f fs]
    rcases h : visitAll (nodes root f) fs with ⟨_ | err, fs1⟩
    · exact generateFiles_eq_visitAll root l fs1
    · rfl
end

end gotree

/-! ## Facts about the filesystem model -/

namespace FS

theorem Preserves.refl (fs : FS) : Preserves fs fs :=
  ⟨rfl, fun _ _ h => h⟩

theorem Preserves.trans {a b c : FS} (h1 : Preserves a b) (h2 : Preserves b c) :
    Preserves a c :=
  ⟨h2.1.trans h1.1, fun q e h => h2.2 q e (h1.2 q e h)⟩

theorem Preserves.ne_none {a b : FS} (h : Preserves a b) {q : Loc} (hq : a.ent q ≠ none) :
    b.ent q ≠ none := by
  cases hq1 : a.ent q with
  | none => exact absurd hq1 hq
  | some e => rw [h.2 q e hq1]; simp

theorem ext_ent {a b : FS} (hc : a.cwd = b.cwd) (he : ∀ q, a.ent q = b.ent q) : a = b := by
  cases a
  cases b
  simp only [FS.mk.injEq] at *
  exact ⟨hc, funext he⟩

theorem resolve_congr {a b : FS} (hc : b.cwd = a.cwd) (p : String) :
    b.resolve p = a.resolve p := by
  simp only [resolve, hc]

@[simp] theorem set_cwd (fs : FS) (p : Loc) (e : Option Entry) : (fs.set p e).cwd = fs.cwd := rfl

theorem set_ent (fs : FS) (p : Loc) (e : Option Entry) (q : Loc) :
    (fs.set p e).ent q = if q = p then e else fs.ent q := rfl

@[simp] theorem set_ent_self (fs : FS) (p : Loc) (e : Option Entry) :
    (fs.set p e).ent p = e := by simp [set_ent]

theorem set_ent_ne (fs : FS) (p : Loc) (e : Option Entry) {q : Loc} (h : q ≠ p) :
    (fs.set p e).ent q = fs.ent q := by simp [set_ent, h]

theorem set_set (fs : FS) (p : Loc) (e1 e2 : Option Entry) :
    (fs.set p e1).set p e2 = fs.set p e2 := by
  refine ext_ent (a := (fs.set p e1).set p e2) (b := fs.set p e2) rfl ?_
  intro q
  by_cases h : q = p <;> simp [set_ent, h]

theorem set_preserves (fs : FS) (p : Loc) (e : Option Entry) (h : fs.ent p = none) :
    Preserves fs (fs.set p e) := by
  refine ⟨rfl, fun q e1 hq => ?_⟩
  have : q ≠ p := by
    rintro rfl
    rw [h] at hq
    exact absurd hq (by simp)
  rw [set_ent_ne fs p e this]
  exact hq

theorem WF.set_of_parent {fs : FS} (hwf : fs.WF) (p : Loc) (e : Entry)
    (hp : p = [] ∨ fs.ent p.dropLast = some Entry.dir)
    (hkeep : e = Entry.dir ∨ ∀ name : String, fs.ent (p ++ [name]) = none) :
    (fs.set p (some e)).WF := by
  intro q hq hqn
  by_cases h1 : q = p
  · subst h1
    rcases hp with hp | hp
    · exact absurd hp hq
    · have : q.dropLast ≠ q := by
        intro hc
        have := congrArg List.length hc
        simp only [List.length_dropLast] at this
        have hpos : 0 < q.length := List.length_pos.mpr hq
        omega
      rw [set_ent_ne fs q _ this]
      exact hp
  · rw [set_ent_ne fs p _ h1] at hqn
    have hd := hwf q hq hqn
    by_cases h2 : q.dropLast = p
    · rw [h2, set_ent_self]
      rcases hkeep with hk | hk
      · rw [hk]
      · exfalso
        have hq2 : q = p ++ [q.getLast hq] := by
          rw [← h2]; exact (List.dropLast_append_getLast hq).symm
        rw [hq2] at hqn
        exact hqn (hk _)
    · rw [set_ent_ne fs p _ h2]
      exact hd

end FS

namespace os

theorem not_prefix_concat (l : List String) (c : String) : ¬ (l ++ [c]) <+: l := by
  intro h
  have := h.length_le
  simp at this

/-- What a successful `MkdirAll` does: the working directory and every existing
entry stay, the only new entries are directories on the way to the target, and
the target is a directory. -/
theorem mkdirAllRev_spec :
    ∀ (r : List String) (fs fs1 : FS), mkdirAllRev fs r = some fs1 →
      fs1.cwd = fs.cwd ∧
      (∀ (q : Loc) (e : Entry), fs.ent q = some e → fs1.ent q = some e) ∧
      (∀ (q : Loc) (e : Entry), fs1.ent q = some e → fs.ent q = none →
        e = Entry.dir ∧ q <+: r.reverse) ∧
      fs1.ent r.reverse = some Entry.dir
  | [], fs, fs1, h => by
    simp only [mkdirAllRev] at h
    cases h0 : fs.ent [] with
    | none =>
      rw [h0] at h
      simp only [Option.some.injEq] at h
      subst h
      refine ⟨rfl, (FS.set_preserves fs [] _ h0).2, ?_, by simp⟩
      intro q e hq hn
      by_cases hq0 : q = []
      · subst hq0
        simp only [FS.set_ent_self, Option.some.injEq] at hq
        exact ⟨hq.symm, by simp⟩
      · rw [FS.set_ent_ne fs [] _ hq0, hn] at hq
        exact absurd hq (by simp)
    | some e0 =>
      rw [h0] at h
      cases e0 with
      | dir =>
        simp only [Option.some.injEq] at h
        subst h
        refine ⟨rfl, fun _ _ hq => hq, ?_, by simpa using h0⟩
        intro q e hq hn
        rw [hn] at hq
        exact absurd hq (by simp)
      | file s => simp at h
  | c :: rest, fs, fs1, h => by
    simp only [mkdirAllRev] at h
    cases h0 : fs.ent (c :: rest).reverse with
    | none =>
      rw [h0] at h
      cases h2 : mkdirAllRev fs rest with
      | none => rw [h2] at h; simp at h
      | some fs2 =>
        rw [h2] at h
        simp only [Option.some.injEq] at h
        subst h
        obtain ⟨hc, hkeep, hnew, _⟩ := mkdirAllRev_spec rest fs fs2 h2
        have hloc : fs2.ent (c :: rest).reverse = none := by
          cases h3 : fs2.ent (c :: rest).reverse with
          | none => rfl
          | some e =>
            have := (hnew _ e h3 h0).2
            simp only [List.reverse_cons] at this
            exact absurd this (not_prefix_concat _ _)
        refine ⟨hc, ?_, ?_, by simp⟩
        · intro q e hq
          exact (FS.set_preserves fs2 _ _ hloc).2 q e (hkeep q e hq)
        · intro q e hq hn
          by_cases hq0 : q = (c :: rest).reverse
          · subst hq0
            simp only [FS.set_ent_self, Option.some.injEq] at hq
            exact ⟨hq.symm, List.prefix_refl _⟩
          · rw [FS.set_ent_ne fs2 _ _ hq0] at hq
            obtain ⟨he, hp⟩ := hnew q e hq hn
            refine ⟨he, ?_⟩
            simp only [List.reverse_cons]
            exact List.prefix_concat_iff.mpr (Or.inr hp)
    | some e0 =>
      rw [h0] at h
      cases e0 with
      | dir =>
        simp only [Option.some.injEq] at h
        subst h
        refine ⟨rfl, fun _ _ hq => hq, ?_, h0⟩
        intro q e hq hn
        rw [hn] at hq
        exact absurd hq (by simp)
      | file s => simp at h

theorem mkdirAllRev_preserves {r : List String} {fs fs1 : FS}
    (h : mkdirAllRev fs r = some fs1) : FS.Preserves fs fs1 :=
  ⟨(mkdirAllRev_spec r fs fs1 h).1, (mkdirAllRev_spec r fs fs1 h).2.1⟩

/-- `MkdirAll` does nothing when the target is a directory. -/
theorem mkdirAllRev_of_dir (r : List String) (fs : FS)
    (h : fs.ent r.reverse = some Entry.dir) : mkdirAllRev fs r = some fs := by
  cases r with
  | nil =>
    simp only [List.reverse_nil] at h
    simp [mkdirAllRev, h]
  | cons c rest =>
    simp only [mkdirAllRev]
    rw [h]

/-- `MkdirAll` keeps the filesystem well formed. -/
theorem mkdirAllRev_wf :
    ∀ (r : List String) (fs fs1 : FS), fs.WF → mkdirAllRev fs r = some fs1 → fs1.WF
  | [], fs, fs1, hwf, h => by
    simp only [mkdirAllRev] at h
    cases h0 : fs.ent [] with
    | none =>
      rw [h0] at h
      simp only [Option.some.injEq] at h
      subst h
      exact FS.WF.set_of_parent hwf [] Entry.dir (Or.inl rfl) (Or.inl rfl)
    | some e0 =>
      rw [h0] at h
      cases e0 with
      | dir =>
        simp only [Option.some.injEq] at h
        subst h
        exact hwf
      | file s => simp at h
  | c :: rest, fs, fs1, hwf, h => by
    simp only [mkdirAllRev] at h
    cases h0 : fs.ent (c :: rest).reverse with
    | none =>
      rw [h0] at h
      cases h2 : mkdirAllRev fs rest with
      | none => rw [h2] at h; simp at h
      | some fs2 =>
        rw [h2] at h
        simp only [Option.some.injEq] at h
        subst h
        have hwf2 := mkdirAllRev_wf rest fs fs2 hwf h2
        have hd := (mkdirAllRev_spec rest fs fs2 h2).2.2.2
        refine FS.WF.set_of_parent hwf2 _ Entry.dir (Or.inr ?_) (Or.inl rfl)
        simpa using hd
    | some e0 =>
      rw [h0] at h
      cases e0 with
      | dir =>
        simp only [Option.some.injEq] at h
        subst h
        exact hwf
      | file s => simp at h

theorem OpenFileExcl_some {fs fs1 : FS} {p : String} {l : Loc}
    (h : OpenFileExcl fs p = some (l, fs1)) :
    l = fs.resolve p ∧ fs.ent l = none ∧ l ≠ [] ∧ fs.ent l.dropLast = some Entry.dir ∧
      fs1 = fs.set l (some (Entry.file "")) := by
  simp only [OpenFileExcl] at h
  cases h0 : fs.ent (fs.resolve p) with
  | some e => rw [h0] at h; simp at h
  | none =>
    rw [h0] at h
    by_cases h1 : fs.resolve p = []
    · simp [h1] at h
    · simp only [h1, if_false] at h
      cases h2 : fs.ent (fs.resolve p).dropLast with
      | none => rw [h2] at h; simp at h
      | some e =>
        rw [h2] at h
        cases e with
        | file s => simp at h
        | dir =>
          simp only [Option.some.injEq, Prod.mk.injEq] at h
          obtain ⟨hl, hfs⟩ := h
          subst hl
          exact ⟨rfl, h0, h1, h2, hfs.symm⟩

theorem OpenFileExcl_of_exists {fs : FS} {p : String} (h : fs.ent (fs.resolve p) ≠ none) :
    OpenFileExcl fs p = none := by
  simp only [OpenFileExcl]
  cases h0 : fs.ent (fs.resolve p) with
  | some e => rfl
  | none => exact absurd h0 h

end os

/-! ## Facts about `createDir`, `generateFile` and the visits -/

namespace gotree

theorem createDir_ok {p : String} {fs fs1 : FS} (h : createDir p fs = (none, fs1)) :
    os.MkdirAll fs p = some fs1 := by
  simp only [createDir] at h
  cases h0 : os.MkdirAll fs p with
  | none => rw [h0] at h; simp at h
  | some fs2 =>
    rw [h0] at h
    simp only [Prod.mk.injEq, true_and] at h
    rw [h]

theorem createDir_preserves (p : String) (fs : FS) : FS.Preserves fs (createDir p fs).2 := by
  simp only [createDir]
  cases h0 : os.MkdirAll fs p with
  | none => exact FS.Preserves.refl fs
  | some fs2 => exact os.mkdirAllRev_preserves h0

theorem createDir_wf (p : String) (fs : FS) (hwf : fs.WF) : (createDir p fs).2.WF := by
  simp only [createDir]
  cases h0 : os.MkdirAll fs p with
  | none => exact hwf
  | some fs2 => exact os.mkdirAllRev_wf _ fs fs2 hwf h0

/-- A successful `generateFile` found nothing at the location, in an existing
directory, and leaves there a regular file with the bytes of the content. -/
theorem generateFile_ok {d : String} {n : File} {fs fs1 : FS}
    (h : generateFile d n fs = (none, fs1)) :
    fs.ent (nodeLoc fs d n) = none ∧ nodeLoc fs d n ≠ [] ∧
      fs.ent (nodeLoc fs d n).dropLast = some Entry.dir ∧
      ∃ data, fileBytes n.Content = some data ∧
        fs1 = fs.set (nodeLoc fs d n) (some (Entry.file data)) := by
  simp only [generateFile] at h
  cases h0 : os.OpenFileExcl fs (path.Join d n.Path) with
  | none => rw [h0] at h; simp at h
  | some r =>
    obtain ⟨l, fs2⟩ := r
    rw [h0] at h
    obtain ⟨hl, hn, hne, hpar, hfs2⟩ := os.OpenFileExcl_some h0
    have hl2 : l = nodeLoc fs d n := hl
    rw [← hl2]
    refine ⟨hn, hne, hpar, ?_⟩
    cases hc : n.Content with
    | nil =>
      rw [hc] at h
      simp only [Prod.mk.injEq, true_and] at h
      exact ⟨"", rfl, by rw [← h, hfs2]⟩
    | str s =>
      rw [hc] at h
      simp only [Prod.mk.injEq, true_and] at h
      refine ⟨s, rfl, ?_⟩
      rw [← h, hfs2, os.WriteString, FS.set_set]
    | file f => rw [hc] at h; simp at h
    | files f => rw [hc] at h; simp at h
    | other => rw [hc] at h; simp at h

/-- A failed `generateFile` either changed nothing (the file could not be
created) or left an empty file (the content has the wrong type). -/
theorem generateFile_err {d : String} {n : File} {fs fs1 : FS} {e : Error}
    (h : generateFile d n fs = (some e, fs1)) :
    (e = Error.cannotCreateFile (path.Join d n.Path) ∧ fs1 = fs) ∨
    (e = Error.fileContentInvalid (path.Join d n.Path) ∧ fileBytes n.Content = none ∧
      fs.ent (nodeLoc fs d n) = none ∧ nodeLoc fs d n ≠ [] ∧
      fs.ent (nodeLoc fs d n).dropLast = some Entry.dir ∧
      fs1 = fs.set (nodeLoc fs d n) (some (Entry.file ""))) := by
  simp only [generateFile] at h
  cases h0 : os.OpenFileExcl fs (path.Join d n.Path) with
  | none =>
    rw [h0] at h
    simp only [Prod.mk.injEq, Option.some.injEq] at h
    exact Or.inl ⟨h.1.symm, h.2.symm⟩
  | some r =>
    obtain ⟨l, fs2⟩ := r
    rw [h0] at h
    obtain ⟨hl, hn, hne, hpar, hfs2⟩ := os.OpenFileExcl_some h0
    have hl2 : l = nodeLoc fs d n := hl
    rw [← hl2]
    right
    cases hc : n.Content with
    | nil => rw [hc] at h; simp at h
    | str s => rw [hc] at h; simp at h
    | file f =>
      rw [hc] at h
      simp only [Prod.mk.injEq, Option.some.injEq] at h
      exact ⟨h.1.symm, rfl, hn, hne, hpar, by rw [← h.2, hfs2]⟩
    | files f =>
      rw [hc] at h
      simp only [Prod.mk.injEq, Option.some.injEq] at h
      exact ⟨h.1.symm, rfl, hn, hne, hpar, by rw [← h.2, hfs2]⟩
    | other =>
      rw [hc] at h
      simp only [Prod.mk.injEq, Option.some.injEq] at h
      exact ⟨h.1.symm, rfl, hn, hne, hpar, by rw [← h.2, hfs2]⟩

/-- Exclusive creation: `generateFile` at a location that holds anything fails
with the file-creation error and changes nothing. -/
theorem generateFile_of_exists {d : String} {n : File} {fs : FS}
    (h : fs.ent (nodeLoc fs d n) ≠ none) :
    generateFile d n fs = (some (Error.cannotCreateFile (path.Join d n.Path)), fs) := by
  simp only [generateFile]
  rw [os.OpenFileExcl_of_exists h]

theorem generateFile_preserves (d : String) (n : File) (fs : FS) :
    FS.Preserves fs (generateFile d n fs).2 := by
  rcases h : generateFile d n fs with ⟨_ | e, fs1⟩
  · obtain ⟨hn, _, _, data, _, hfs⟩ := generateFile_ok h
    rw [hfs]
    exact FS.set_preserves fs _ _ hn
  · rcases generateFile_err h with ⟨_, hfs⟩ | ⟨_, _, hn, _, _, hfs⟩
    · simp only [hfs]; exact FS.Preserves.refl fs
    · simp only [hfs]; exact FS.set_preserves fs _ _ hn

theorem generateFile_wf (d : String) (n : File) (fs : FS) (hwf : fs.WF) :
    (generateFile d n fs).2.WF := by
  have key : ∀ data : String, fs.ent (nodeLoc fs d n) = none →
      fs.ent (nodeLoc fs d n).dropLast = some Entry.dir →
      (fs.set (nodeLoc fs d n) (some (Entry.file data))).WF := by
    intro data hn hpar
    refine FS.WF.set_of_parent hwf _ _ (Or.inr hpar) (Or.inr ?_)
    intro name
    cases hc : fs.ent (nodeLoc fs d n ++ [name]) with
    | none => rfl
    | some e =>
      have := hwf (nodeLoc fs d n ++ [name]) (by simp) (by rw [hc]; simp)
      simp only [List.dropLast_concat, hn] at this
      exact absurd this (by simp)
  rcases h : generateFile d n fs with ⟨_ | e, fs1⟩
  · obtain ⟨hn, _, hpar, data, _, hfs⟩ := generateFile_ok h
    rw [hfs]
    exact key data hn hpar
  · rcases generateFile_err h with ⟨_, hfs⟩ | ⟨_, _, hn, _, hpar, hfs⟩
    · simp only [hfs]; exact hwf
    · simp only [hfs]; exact key "" hn hpar

theorem visit_file {d : String} {n : File} (hn : isFileNode n = true) (fs : FS) :
    visit d n fs = generateFile d n fs := by
  simp only [isFileNode, Bool.not_eq_true'] at hn
  simp [visit, hn]

theorem visit_dir_state {d : String} {n : File} (hn : isFileNode n = false) (fs : FS) :
    (visit d n fs).2 = (createDir (path.Join d n.Path) fs).2 := by
  simp only [isFileNode, Bool.not_eq_false'] at hn
  simp only [visit, hn, if_true]
  rcases h : createDir (path.Join d n.Path) fs with ⟨_ | e, fs1⟩
  · cases n.Content <;> rfl
  · rfl

/-- A directory node visited without error: its directory was made and its
content is `nil`, a `File` or a `[]File`. -/
theorem visit_dir_ok {d : String} {n : File} {fs fs1 : FS} (hn : isFileNode n = false)
    (h : visit d n fs = (none, fs1)) :
    os.mkdirAllRev fs (nodeLoc fs d n).reverse = some fs1 := by
  have hs := visit_dir_state (d := d) hn fs
  simp only [isFileNode, Bool.not_eq_false'] at hn
  simp only [visit, hn, if_true] at h
  rcases h1 : createDir (path.Join d n.Path) fs with ⟨_ | e, fs2⟩
  · rw [h1] at h
    have h2 : fs2 = fs1 := by
      cases hc : n.Content <;> rw [hc] at h <;> simp at h <;> exact h
    rw [← h2]
    exact createDir_ok h1
  · rw [h1] at h
    simp at h

theorem visit_preserves (d : String) (n : File) (fs : FS) :
    FS.Preserves fs (visit d n fs).2 := by
  cases hn : isFileNode n with
  | true => rw [visit_file hn]; exact generateFile_preserves d n fs
  | false => rw [visit_dir_state hn]; exact createDir_preserves _ fs

theorem visit_wf (d : String) (n : File) (fs : FS) (hwf : fs.WF) : (visit d n fs).2.WF := by
  cases hn : isFileNode n with
  | true => rw [visit_file hn]; exact generateFile_wf d n fs hwf
  | false => rw [visit_dir_state hn]; exact createDir_wf _ fs hwf

theorem visitAll_preserves :
    ∀ (l : List (String × File)) (fs : FS), FS.Preserves fs (visitAll l fs).2
  | [], fs => FS.Preserves.refl fs
  | (d, n) :: rest, fs => by
    simp only [visitAll]
    have h1 := visit_preserves d n fs
    rcases h : visit d n fs with ⟨_ | e, fs1⟩
    · rw [h] at h1
      exact h1.trans (visitAll_preserves rest fs1)
    · rw [h] at h1
      exact h1

theorem visitAll_wf :
    ∀ (l : List (String × File)) (fs : FS), fs.WF → (visitAll l fs).2.WF
  | [], _, hwf => hwf
  | (d, n) :: rest, fs, hwf => by
    simp only [visitAll]
    have h1 := visit_wf d n fs hwf
    rcases h : visit d n fs with ⟨_ | e, fs1⟩
    · rw [h] at h1
      exact visitAll_wf rest fs1 h1
    · rw [h] at h1
      exact h1

/-- A successful sequence of visits splits at any point into two successful
sequences. -/
theorem visitAll_append_ok {l1 l2 : List (String × File)} {fs fs2 : FS}
    (h : visitAll (l1 ++ l2) fs = (none, fs2)) :
    ∃ fs1, visitAll l1 fs = (none, fs1) ∧ visitAll l2 fs1 = (none, fs2) := by
  rw [visitAll_append] at h
  rcases h1 : visitAll l1 fs with ⟨_ | e, fs1⟩
  · rw [h1] at h
    exact ⟨fs1, rfl, h⟩
  · rw [h1] at h
    simp at h

/-- In a successful sequence of visits every node of the sequence was visited
without error, in a state that kept everything the start had, and everything
it left is kept to the end. -/
theorem visitAll_ok_mem :
    ∀ (l : List (String × File)) (fs fs2 : FS), visitAll l fs = (none, fs2) →
      ∀ x ∈ l, ∃ s s1, FS.Preserves fs s ∧ visit x.1 x.2 s = (none, s1) ∧ FS.Preserves s1 fs2
  | [], _, _, _, x, hx => by simp at hx
  | (d, n) :: rest, fs, fs2, h, x, hx => by
    simp only [visitAll] at h
    rcases h1 : visit d n fs with ⟨_ | e, fs1⟩
    · rw [h1] at h
      simp only at h
      have hp1 : FS.Preserves fs fs1 := by
        have := visit_preserves d n fs
        rwa [h1] at this
      have hp2 : FS.Preserves fs1 fs2 := by
        have := visitAll_preserves rest fs1
        rwa [h] at this
      rcases List.mem_cons.mp hx with hx | hx
      · subst hx
        exact ⟨fs, fs1, FS.Preserves.refl fs, h1, hp2⟩
      · obtain ⟨s, s1, hs, hv, hs1⟩ := visitAll_ok_mem rest fs1 fs2 h x hx
        exact ⟨s, s1, hp1.trans hs, hv, hs1⟩
    · rw [h1] at h
      simp at h

/-! ## Round trip of file content, and no clobbering -/

theorem GenerateFromRoot_unfold {root : String} (hroot : root ≠ "") (files : List File) (fs : FS) :
    GenerateFromRoot root files fs =
      match createDir root fs with
      | (some err, fs1) => (some err, fs1)
      | (none, fs1) => visitAll (nodesFiles root files) fs1 := by
  simp only [GenerateFromRoot, hroot, if_false]
  rcases h : createDir root fs with ⟨_ | e, fs1⟩
  · exact generateFiles_eq_visitAll root files fs1
  · rfl

/-- A successful `GenerateFromRoot` had a non-empty root, made the root
directory and then visited every node without error. -/
theorem GenerateFromRoot_ok {root : String} {files : List File} {fs : FS}
    (h : (GenerateFromRoot root files fs).1 = none) :
    root ≠ "" ∧ ∃ fs1, createDir root fs = (none, fs1) ∧
      visitAll (nodesFiles root files) fs1 = (none, (GenerateFromRoot root files fs).2) := by
  have hroot : root ≠ "" := by
    intro hr
    simp [GenerateFromRoot, hr] at h
  refine ⟨hroot, ?_⟩
  rw [GenerateFromRoot_unfold hroot] at h ⊢
  rcases h1 : createDir root fs with ⟨_ | e, fs1⟩
  · rw [h1] at h
    simp only at h
    exact ⟨fs1, rfl, Prod.ext h rfl⟩
  · rw [h1] at h
    simp at h

theorem GenerateFromRoot_preserves (root : String) (files : List File) (fs : FS) :
    FS.Preserves fs (GenerateFromRoot root files fs).2 := by
  by_cases hroot : root = ""
  · simp only [GenerateFromRoot, hroot, if_true]
    exact FS.Preserves.refl fs
  · rw [GenerateFromRoot_unfold hroot]
    have h0 := createDir_preserves root fs
    rcases h1 : createDir root fs with ⟨_ | e, fs1⟩
    · rw [h1] at h0
      exact h0.trans (visitAll_preserves _ fs1)
    · rw [h1] at h0
      exact h0

/-- C1 (round trip of file content): when `gotree.GenerateFromRoot` returns nil,
every file node of the description, at any depth, whose content is a non-empty
string `C` is afterwards a regular file at `path.Join(parent directory, Path)`
holding exactly `C` (an empty `C` included). -/
theorem file_content_roundtrip (fs : FS) (root : String) (files : List File)
    (d : String) (n : File) (C : String)
    (hnil : (GenerateFromRoot root files fs).1 = none)
    (hmem : (d, n) ∈ nodesFiles root files)
    (hfile : strings.HasSuffixSlash n.Path = false)
    (hcontent : n.Content = Content.str C) :
    (GenerateFromRoot root files fs).2.ent
      ((GenerateFromRoot root files fs).2.resolve (path.Join d n.Path)) =
        some (Entry.file C) := by
  obtain ⟨_, fs1, hdir, hall⟩ := GenerateFromRoot_ok hnil
  obtain ⟨s, s1, _, hv, hkeep⟩ := visitAll_ok_mem _ fs1 _ hall (d, n) hmem
  have hf : isFileNode n = true := by simp [isFileNode, hfile]
  simp only at hv
  rw [visit_file hf] at hv
  obtain ⟨_, _, _, data, hb, hs1⟩ := generateFile_ok hv
  rw [hcontent] at hb
  simp only [fileBytes, Option.some.injEq] at hb
  have hcwd : (GenerateFromRoot root files fs).2.cwd = s.cwd := by
    rw [hkeep.1, hs1, FS.set_cwd]
  rw [FS.resolve_congr hcwd]
  apply hkeep.2
  rw [hs1, hb]
  exact FS.set_ent_self _ _ _

theorem file_content_roundtrip_witness :
    (GenerateFromRoot "r" testTree demoFS).1 = none ∧
    (nodesFiles "r" testTree)[2]? =
      some ("r/json", File.mk "test1.json"
        (Content.str "\x7b\"key1\":\"value1\",\"key2\":\"value2\"\x7d")) ∧
    (GenerateFromRoot "r" testTree demoFS).2.ent ["home", "r", "json", "test1.json"] =
      some (Entry.file "\x7b\"key1\":\"value1\",\"key2\":\"value2\"\x7d") :=
  ⟨by decide, rfl,
    file_content_roundtrip demoFS "r" testTree "r/json"
      (File.mk "test1.json" (Content.str "\x7b\"key1\":\"value1\",\"key2\":\"value2\"\x7d"))
      "\x7b\"key1\":\"value1\",\"key2\":\"value2\"\x7d"
      (by decide) (List.getElem?_mem (n := 2) rfl) (by decide) rfl⟩

/-- A file node whose location already holds something makes the call fail. -/
theorem GenerateFromRoot_existing_path {fs : FS} {root : String} {files : List File}
    {d : String} {n : File} (hmem : (d, n) ∈ nodesFiles root files)
    (hfile : strings.HasSuffixSlash n.Path = false)
    (hex : fs.ent (fs.resolve (path.Join d n.Path)) ≠ none) :
    (GenerateFromRoot root files fs).1 ≠ none := by
  intro hnil
  obtain ⟨_, fs1, hdir, hall⟩ := GenerateFromRoot_ok hnil
  obtain ⟨s, s1, hs, hv, _⟩ := visitAll_ok_mem _ fs1 _ hall (d, n) hmem
  have hp1 := createDir_preserves root fs
  rw [hdir] at hp1
  have hp := hp1.trans hs
  simp only at hv
  rw [visit_file (by simp [isFileNode, hfile])] at hv
  obtain ⟨hnone, _⟩ := generateFile_ok hv
  rw [nodeLoc, FS.resolve_congr hp.1] at hnone
  exact hp.ne_none hex hnone

/-- C5 (the strict variant never clobbers): whatever `gotree.GenerateFromRoot`
returns, every regular file that existed before the call still exists with the
same bytes and every directory that existed before is still a directory; the
working directory is the same; and a file node whose resolved path already
exists makes the call fail. -/
theorem GenerateFromRoot_never_clobbers (fs : FS) (root : String) (files : List File) :
    (∀ (q : Loc) (data : String), fs.ent q = some (Entry.file data) →
      (GenerateFromRoot root files fs).2.ent q = some (Entry.file data)) ∧
    (∀ q : Loc, fs.ent q = some Entry.dir →
      (GenerateFromRoot root files fs).2.ent q = some Entry.dir) ∧
    (GenerateFromRoot root files fs).2.cwd = fs.cwd ∧
    (∀ (d : String) (n : File), (d, n) ∈ nodesFiles root files →
      strings.HasSuffixSlash n.Path = false →
      fs.ent (fs.resolve (path.Join d n.Path)) ≠ none →
      (GenerateFromRoot root files fs).1 ≠ none) :=
  ⟨fun q _ h => (GenerateFromRoot_preserves root files fs).2 q _ h,
   fun q h => (GenerateFromRoot_preserves root files fs).2 q _ h,
   (GenerateFromRoot_preserves root files fs).1,
   fun _ _ hmem hfile hex => GenerateFromRoot_existing_path hmem hfile hex⟩

theorem GenerateFromRoot_never_clobbers_witness :
    demoFSWithFile.ent ["home", "r", "a"] = some (Entry.file "old") ∧
    (GenerateFromRoot "r" [File.mk "a" (Content.str "new")] demoFSWithFile).2.ent
      ["home", "r", "a"] = some (Entry.file "old") ∧
    demoFSWithFile.ent ["home", "r"] = some Entry.dir ∧
    (GenerateFromRoot "r" [File.mk "a" (Content.str "new")] demoFSWithFile).2.ent
      ["home", "r"] = some Entry.dir ∧
    (GenerateFromRoot "r" [File.mk "a" (Content.str "new")] demoFSWithFile).1 ≠ none :=
  ⟨by decide,
   (GenerateFromRoot_never_clobbers demoFSWithFile "r" [File.mk "a" (Content.str "new")]).1
     ["home", "r", "a"] "old" (by decide),
   by decide,
   (GenerateFromRoot_never_clobbers demoFSWithFile "r" [File.mk "a" (Content.str "new")]).2.1
     ["home", "r"] (by decide),
   (GenerateFromRoot_never_clobbers demoFSWithFile "r" [File.mk "a" (Content.str "new")]).2.2.2
     "r" (File.mk "a" (Content.str "new")) (List.getElem?_mem (n := 0) rfl) (by decide)
     (by decide)⟩

end gotree

/-! ## The `pop` traversal as a flat sequence of visits -/

namespace pop

theorem createDir_eq (p : String) (fs : FS) : createDir p fs = gotree.createDir p fs := rfl

theorem visits_append (l1 l2 : List (String × Item)) (fs : FS) (rd : Readers) :
    visitAll (l1 ++ l2) fs rd =
      match visitAll l1 fs rd with
      | (some err, fs1, rd1) => (some err, fs1, rd1)
      | (none, fs1, rd1) => visitAll l2 fs1 rd1 := by
  induction l1 generalizing fs rd with
  | nil => simp [visitAll]
  | cons x l1 ih =>
    obtain ⟨d, n⟩ := x
    simp only [List.cons_append, visitAll]
    rcases h : visit d n fs rd with ⟨_ | err, fs1, rd1⟩
    · exact ih fs1 rd1
    · simp

mutual
theorem generate_eq_visits (root : String) :
    ∀ (item : Item) (fs : FS) (rd : Readers),
      generate root item fs rd = visitAll (nodes root item) fs rd
  | .mk name content, fs, rd => by
    by_cases hp : strings.HasSuffixSlash name = true
    · simp only [generate, generateDir, nodes, hp, if_true, visitAll, visit, Item.name,
        Item.content]
      rcases h : createDir (path.Join root name) fs with ⟨_ | err, fs1⟩
      · cases content with
        | nil => simp [nodesContent, visitAll]
        | str s => simp [nodesContent, visitAll]
        | reader r => simp [nodesContent, visitAll]
        | other => simp [nodesContent, visitAll]
        | corn l =>
          simp only [nodesContent]
          exact generateCorn_eq_visits (path.Join root name) l fs1 rd
      · simp
    · simp only [generate, nodes, hp, visitAll, visit, Item.name, Item.content]
      rcases h : generateFile root name content fs rd with ⟨_ | err, fs1, rd1⟩ <;> simp

theorem generateCorn_eq_visits (root : String) :
    ∀ (l : List Item) (fs : FS) (rd : Readers),
      generateCorn root l fs rd = visitAll (nodesCorn root l) fs rd
  | [], fs, rd => by simp [generateCorn, nodesCorn, visitAll]
  | item :: l, fs, rd => by
    simp only [generateCorn, nodesCorn, visits_append]
    rw [generate_eq_visits root item fs rd]
    rcases h : visitAll (nodes root item) fs rd with ⟨_ | err, fs1, rd1⟩
    · exact generateCorn_eq_visits root l fs1 rd1
    · rfl
end

/-- The visit of an entry leaves the filesystem the visit of the `gotree` node
that stands for it leaves, and returns nil only if that one does (it fails in
addition when its reader fails). -/
theorem visit_shallow (d : String) (item : Item) (fs : FS) (rd : Readers) :
    (visit d item fs rd).2.1 = (gotree.visit d (item.shallow rd) fs).2 ∧
      ((visit d item fs rd).1 = none → (gotree.visit d (item.shallow rd) fs).1 = none) := by
  obtain ⟨name, content⟩ := item
  by_cases hp : strings.HasSuffixSlash name = true
  · simp only [visit, gotree.visit, Item.shallow, Item.name, Item.content, gotree.File.Path,
      gotree.File.Content, hp, if_true, createDir_eq]
    rcases h : gotree.createDir (path.Join d name) fs with ⟨_ | err, fs1⟩
    · cases content <;> simp [Content.shallow]
    · simp
  · simp only [visit, gotree.visit, Item.shallow, Item.name, Item.content, gotree.File.Path,
      hp, generateFile, gotree.generateFile, gotree.File.Content]
    cases h0 : os.OpenFileExcl fs (path.Join d name) with
    | none => simp
    | some r =>
      obtain ⟨l, fs1⟩ := r
      obtain ⟨_, _, _, _, hfs1⟩ := os.OpenFileExcl_some h0
      cases content with
      | nil =>
        simp only [contentToReader, Content.shallow, io.Copy, os.WriteString]
        rw [hfs1, FS.set_set]
        simp
      | str s => simp [contentToReader, Content.shallow, io.Copy]
      | reader r =>
        simp only [contentToReader, Content.shallow, io.Copy]
        cases (rd.next r).2 <;> simp
      | corn c => simp [contentToReader, Content.shallow]
      | other => simp [contentToReader, Content.shallow]

/-- A reader that stops with a read error: the file keeps the bytes read before
the error and the call returns the write error. -/
theorem generate_read_error :
    (generate "." (Item.mk "f" (Content.reader 1)) demoFS demoReaders).1 =
      some (Error.cannotWriteFile "f") ∧
    (generate "." (Item.mk "f" (Content.reader 1)) demoFS demoReaders).2.1.ent ["home", "f"] =
      some (Entry.file "par") ∧
    (generate "." (Item.mk "f" (Content.reader 1)) demoFS demoReaders).2.2 1 = [] :=
  ⟨by decide, by decide, by decide⟩

theorem nodes_first (d : String) (item : Item) : ∃ rest, nodes d item = (d, item) :: rest := by
  cases item with
  | mk name c =>
    refine ⟨if strings.HasSuffixSlash name then nodesContent (path.Join d name) c else [], ?_⟩
    simp only [nodes]

theorem visits_cons_ok {d : String} {item : Item} {rest : List (String × Item)} {fs : FS}
    {rd : Readers} (h : (visitAll ((d, item) :: rest) fs rd).1 = none) :
    (visit d item fs rd).1 = none ∧
      visitAll ((d, item) :: rest) fs rd =
        visitAll rest (visit d item fs rd).2.1 (visit d item fs rd).2.2 := by
  simp only [visitAll] at h ⊢
  rcases h1 : visit d item fs rd with ⟨_ | e, fs1, rd1⟩
  · exact ⟨rfl, rfl⟩
  · rw [h1] at h
    simp at h

theorem visits_cons_error {d : String} {item : Item} (rest : List (String × Item)) {fs : FS}
    {rd : Readers} (h : (visit d item fs rd).1 ≠ none) :
    visitAll ((d, item) :: rest) fs rd = visit d item fs rd := by
  simp only [visitAll]
  rcases h1 : visit d item fs rd with ⟨_ | e, fs1, rd1⟩
  · rw [h1] at h
    exact absurd rfl h
  · rfl

/-- In a sequence of visits that returned nil every entry was visited without
error. -/
theorem visits_ok_mem :
    ∀ (l : List (String × Item)) (fs : FS) (rd : Readers), (visitAll l fs rd).1 = none →
      ∀ x ∈ l, ∃ (s : FS) (rd1 : Readers), (visit x.1 x.2 s rd1).1 = none
  | [], _, _, _, x, hx => by simp at hx
  | (d, item) :: rest, fs, rd, h, x, hx => by
    obtain ⟨h1, h2⟩ := visits_cons_ok h
    rcases List.mem_cons.mp hx with hx | hx
    · subst hx
      exact ⟨fs, rd, h1⟩
    · rw [h2] at h
      exact visits_ok_mem rest _ _ h x hx

end pop

/-! ## Shape errors -/

namespace gotree

theorem visit_shapeMismatch {n : File} (h : shapeMismatch n = true) (d : String) (fs : FS) :
    (visit d n fs).1 ≠ none := by
  cases hp : strings.HasSuffixSlash n.Path with
  | false =>
    have hf : isFileNode n = true := by simp [isFileNode, hp]
    rw [visit_file hf]
    intro hnil
    have hok : generateFile d n fs = (none, (generateFile d n fs).2) := Prod.ext hnil rfl
    obtain ⟨_, _, _, data, hb, _⟩ := generateFile_ok hok
    cases hc : n.Content with
    | nil => simp [shapeMismatch, hp, hc] at h
    | str s => simp [shapeMismatch, hp, hc] at h
    | file f => simp [fileBytes, hc] at hb
    | files l => simp [fileBytes, hc] at hb
    | other => simp [shapeMismatch, hp, hc] at h
  | true =>
    simp only [visit, hp, if_true]
    rcases h1 : createDir (path.Join d n.Path) fs with ⟨_ | e, fs1⟩
    · cases hc : n.Content with
      | nil => simp [shapeMismatch, hp, hc] at h
      | str s => simp
      | file f => simp [shapeMismatch, hp, hc] at h
      | files l => simp [shapeMismatch, hp, hc] at h
      | other => simp [shapeMismatch, hp, hc] at h
    · simp

theorem nodes_head (d : String) (n : File) : ∃ rest, nodes d n = (d, n) :: rest := by
  cases n with
  | mk p c =>
    refine ⟨if strings.HasSuffixSlash p then nodesContent (path.Join d p) c else [], ?_⟩
    simp only [nodes]

theorem visitAll_cons_error {d : String} {n : File} {fs : FS} (rest : List (String × File))
    (h : (visit d n fs).1 ≠ none) :
    visitAll ((d, n) :: rest) fs = visit d n fs := by
  simp only [visitAll]
  rcases h1 : visit d n fs with ⟨_ | e, fs1⟩
  · rw [h1] at h
    exact absurd rfl h
  · rfl

theorem generate_shapeMismatch {n : File} (h : shapeMismatch n = true) (d : String) (fs : FS) :
    (generate d n fs).1 ≠ none := by
  obtain ⟨rest, hr⟩ := nodes_head d n
  rw [generate_eq_visitAll, hr, visitAll_cons_error rest (visit_shapeMismatch h d fs)]
  exact visit_shapeMismatch h d fs

theorem visitAll_shapeMismatch {l : List (String × File)} {d : String} {n : File}
    (hmem : (d, n) ∈ l) (h : shapeMismatch n = true) (fs : FS) :
    (visitAll l fs).1 ≠ none := by
  intro hnil
  obtain ⟨s, s1, _, hv, _⟩ := visitAll_ok_mem l fs (visitAll l fs).2 (Prod.ext hnil rfl) (d, n) hmem
  exact visit_shapeMismatch h d s (by rw [hv])

theorem GenerateFromRoot_shapeMismatch {root : String} {files : List File} {d : String}
    {n : File} (hmem : (d, n) ∈ nodesFiles root files) (h : shapeMismatch n = true) (fs : FS) :
    (GenerateFromRoot root files fs).1 ≠ none := by
  intro hnil
  obtain ⟨_, fs1, _, hall⟩ := GenerateFromRoot_ok hnil
  exact visitAll_shapeMismatch hmem h fs1 (by rw [hall])

end gotree

namespace pop

theorem shapeMismatch_shallow {item : Item} (h : shapeMismatch item = true) (rd : Readers) :
    gotree.shapeMismatch (item.shallow rd) = true := by
  cases item with
  | mk name content =>
    simp only [shapeMismatch, Item.name, Item.content] at h
    simp only [gotree.shapeMismatch, Item.shallow, gotree.File.Path, gotree.File.Content,
      Item.name, Item.content]
    cases hp : strings.HasSuffixSlash name <;> cases content <;>
      simp_all [Content.shallow]

theorem visit_shapeMismatch_corn {item : Item} (h : shapeMismatch item = true) (d : String)
    (fs : FS) (rd : Readers) : (visit d item fs rd).1 ≠ none :=
  fun hnil => gotree.visit_shapeMismatch (shapeMismatch_shallow h rd) d fs
    ((visit_shallow d item fs rd).2 hnil)

/-- When the removal of the root fails, the destructive variant returns the
removal error and the filesystem the removal left. -/
theorem GenerateFromRoot_removal_failed {root : String} (hroot : root ≠ "") (files : Corn)
    (fs : FS) (rd : Readers) (h : (os.RemoveAll fs root).1 = false) :
    GenerateFromRoot root files fs rd =
      (some (Error.cannotDeleteRoot root), (os.RemoveAll fs root).2, rd) := by
  simp only [GenerateFromRoot, hroot, if_false]
  rcases hr : os.RemoveAll fs root with ⟨_ | _, fs0⟩
  · rfl
  · rw [hr] at h
    simp at h

/-- When the removal of the root succeeds, the destructive variant makes the
root in the filesystem the removal left and visits the entries in order. -/
theorem GenerateFromRoot_removed {root : String} (hroot : root ≠ "") (files : Corn) (fs : FS)
    (rd : Readers) (h : (os.RemoveAll fs root).1 = true) :
    GenerateFromRoot root files fs rd =
      match gotree.createDir root (os.RemoveAll fs root).2 with
      | (some err, fs1) => (some err, fs1, rd)
      | (none, fs1) => visitAll (nodesCorn root files) fs1 rd := by
  simp only [GenerateFromRoot, hroot, if_false, createDir_eq]
  rcases hr : os.RemoveAll fs root with ⟨_ | _, fs0⟩
  · rw [hr] at h
    simp at h
  · simp only
    rcases hd : gotree.createDir root fs0 with ⟨_ | e, fs1⟩
    · exact generateCorn_eq_visits root files fs1 rd
    · rfl

/-- The three ways a call of the destructive `GenerateFromRoot` goes. -/
theorem GenerateFromRoot_cases (root : String) (files : Corn) (fs : FS) (rd : Readers) :
    (root = "" ∧ GenerateFromRoot root files fs rd = (some Error.rootNil, fs, rd)) ∨
    (root ≠ "" ∧ (os.RemoveAll fs root).1 = false ∧
      GenerateFromRoot root files fs rd =
        (some (Error.cannotDeleteRoot root), (os.RemoveAll fs root).2, rd)) ∨
    (root ≠ "" ∧ (os.RemoveAll fs root).1 = true ∧
      ∃ (e : Error) (fs1 : FS),
        gotree.createDir root (os.RemoveAll fs root).2 = (some e, fs1) ∧
        GenerateFromRoot root files fs rd = (some e, fs1, rd)) ∨
    (root ≠ "" ∧ (os.RemoveAll fs root).1 = true ∧
      ∃ fs1 : FS, gotree.createDir root (os.RemoveAll fs root).2 = (none, fs1) ∧
        GenerateFromRoot root files fs rd = visitAll (nodesCorn root files) fs1 rd) := by
  by_cases hroot : root = ""
  · left
    exact ⟨hroot, by simp [GenerateFromRoot, hroot]⟩
  · right
    cases hr : (os.RemoveAll fs root).1 with
    | false => exact Or.inl ⟨hroot, rfl, GenerateFromRoot_removal_failed hroot files fs rd hr⟩
    | true =>
      right
      have hg := GenerateFromRoot_removed hroot files fs rd hr
      rcases hd : gotree.createDir root (os.RemoveAll fs root).2 with ⟨_ | e, fs1⟩
      · rw [hd] at hg
        exact Or.inr ⟨hroot, rfl, fs1, rfl, hg⟩
      · rw [hd] at hg
        exact Or.inl ⟨hroot, rfl, e, fs1, rfl, hg⟩

theorem GenerateFromRoot_corn_shapeMismatch {root : String} {files : Corn} {d : String}
    {item : Item} (hmem : (d, item) ∈ nodesCorn root files) (h : shapeMismatch item = true)
    (fs : FS) (rd : Readers) : (GenerateFromRoot root files fs rd).1 ≠ none := by
  rcases GenerateFromRoot_cases root files fs rd with ⟨_, hg⟩ | ⟨_, _, hg⟩ |
    ⟨_, _, e, fs1, _, hg⟩ | ⟨_, _, fs1, _, hg⟩
  · rw [hg]; simp
  · rw [hg]; simp
  · rw [hg]; simp
  · rw [hg]
    intro hnil
    obtain ⟨s, rd1, hv⟩ := visits_ok_mem _ fs1 rd hnil (d, item) hmem
    exact visit_shapeMismatch_corn h d s rd1 hv

end pop

/-- C2 (shape invariant): materializing a node whose content does not fit its
name returns a non-nil error in both packages, whatever the filesystem, the
state of the readers and the parent path (`gotree`: a `File` or `[]File` under
a file path, a string under a directory path; `pop`: a `Corn` under a file
name, a string or a reader under a directory name), and a `GenerateFromRoot`
whose description holds such a node returns a non-nil error. -/
theorem shape_mismatch_is_error :
    (∀ (fs : FS) (d : String) (n : gotree.File), gotree.shapeMismatch n = true →
      (gotree.generate d n fs).1 ≠ none) ∧
    (∀ (fs : FS) (rd : Readers) (d : String) (item : pop.Item),
      pop.shapeMismatch item = true → (pop.generate d item fs rd).1 ≠ none) ∧
    (∀ (fs : FS) (root : String) (files : List gotree.File) (d : String) (n : gotree.File),
      (d, n) ∈ gotree.nodesFiles root files → gotree.shapeMismatch n = true →
      (gotree.GenerateFromRoot root files fs).1 ≠ none) ∧
    (∀ (fs : FS) (rd : Readers) (root : String) (files : pop.Corn) (d : String)
      (item : pop.Item),
      (d, item) ∈ pop.nodesCorn root files → pop.shapeMismatch item = true →
      (pop.GenerateFromRoot root files fs rd).1 ≠ none) :=
  ⟨fun fs d _ h => gotree.generate_shapeMismatch h d fs,
   fun fs rd d item h => by
     obtain ⟨rest, hr⟩ := pop.nodes_first d item
     rw [pop.generate_eq_visits, hr,
       pop.visits_cons_error rest (pop.visit_shapeMismatch_corn h d fs rd)]
     exact pop.visit_shapeMismatch_corn h d fs rd,
   fun fs _ _ _ _ hmem h => gotree.GenerateFromRoot_shapeMismatch hmem h fs,
   fun fs rd _ _ _ _ hmem h => pop.GenerateFromRoot_corn_shapeMismatch hmem h fs rd⟩

theorem shape_mismatch_is_error_witness :
    (gotree.shapeMismatch (gotree.File.mk "f" (gotree.Content.files [])) = true ∧
      (gotree.generate "." (gotree.File.mk "f" (gotree.Content.files [])) demoFS).1 ≠ none) ∧
    (pop.shapeMismatch (pop.Item.mk "d/" (pop.Content.reader 0)) = true ∧
      (pop.generate "." (pop.Item.mk "d/" (pop.Content.reader 0)) demoFS demoReaders).1 ≠
        none) ∧
    ((gotree.nodesFiles "r" [gotree.File.mk "d/" (gotree.Content.file
          (gotree.File.mk "e/" (gotree.Content.str "x")))])[1]? =
        some ("r/d", gotree.File.mk "e/" (gotree.Content.str "x")) ∧
      gotree.shapeMismatch (gotree.File.mk "e/" (gotree.Content.str "x")) = true ∧
      (gotree.GenerateFromRoot "r" [gotree.File.mk "d/" (gotree.Content.file
          (gotree.File.mk "e/" (gotree.Content.str "x")))] demoFS).1 ≠ none) ∧
    ((pop.nodesCorn "r" [pop.Item.mk "d/" (pop.Content.corn
          [pop.Item.mk "f" (pop.Content.corn [])])])[1]? =
        some ("r/d", pop.Item.mk "f" (pop.Content.corn [])) ∧
      pop.shapeMismatch (pop.Item.mk "f" (pop.Content.corn [])) = true ∧
      (pop.GenerateFromRoot "r" [pop.Item.mk "d/" (pop.Content.corn
          [pop.Item.mk "f" (pop.Content.corn [])])] demoFS demoReaders).1 ≠ none) :=
  ⟨⟨rfl, shape_mismatch_is_error.1 demoFS "." _ rfl⟩,
   ⟨rfl, shape_mismatch_is_error.2.1 demoFS demoReaders "." _ rfl⟩,
   ⟨rfl, rfl, shape_mismatch_is_error.2.2.1 demoFS "r" _ "r/d" _
      (List.getElem?_mem (n := 1) rfl) rfl⟩,
   ⟨rfl, rfl, shape_mismatch_is_error.2.2.2 demoFS demoReaders "r" _ "r/d" _
      (List.getElem?_mem (n := 1) rfl) rfl⟩⟩

/-! ## Exclusive creation of files -/

namespace gotree

theorem visitAll_cons_ok {d : String} {n : File} {rest : List (String × File)} {fs fs2 : FS}
    (h : visitAll ((d, n) :: rest) fs = (none, fs2)) :
    ∃ fs1, visit d n fs = (none, fs1) ∧ visitAll rest fs1 = (none, fs2) := by
  simp only [visitAll] at h
  rcases h1 : visit d n fs with ⟨_ | e, fs1⟩
  · rw [h1] at h
    exact ⟨fs1, rfl, h⟩
  · rw [h1] at h
    simp at h

/-- After a successful sequence of visits every file node of the sequence is a
regular file holding the bytes of its content. -/
theorem visitAll_file_kept {l : List (String × File)} {fs fs2 : FS}
    (h : visitAll l fs = (none, fs2)) {d : String} {n : File} (hmem : (d, n) ∈ l)
    (hf : isFileNode n = true) :
    ∃ data, fileBytes n.Content = some data ∧
      fs2.ent (fs2.resolve (path.Join d n.Path)) = some (Entry.file data) := by
  obtain ⟨s, s1, _, hv, hkeep⟩ := visitAll_ok_mem l fs fs2 h (d, n) hmem
  simp only at hv
  rw [visit_file hf] at hv
  obtain ⟨_, _, _, data, hb, hs1⟩ := generateFile_ok hv
  refine ⟨data, hb, ?_⟩
  have hcwd : fs2.cwd = s.cwd := by rw [hkeep.1, hs1, FS.set_cwd]
  rw [FS.resolve_congr hcwd]
  apply hkeep.2
  rw [hs1]
  exact FS.set_ent_self _ _ _

/-- Two file nodes with the same joined path cannot both be visited without
error. -/
theorem visitAll_duplicate {pre mid post : List (String × File)} {d1 d2 : String}
    {n1 n2 : File} (hf1 : isFileNode n1 = true) (hf2 : isFileNode n2 = true)
    (hpath : path.Join d1 n1.Path = path.Join d2 n2.Path) (fs : FS) :
    (visitAll (pre ++ (d1, n1) :: (mid ++ (d2, n2) :: post)) fs).1 ≠ none := by
  intro hnil
  have hok : visitAll (pre ++ (d1, n1) :: (mid ++ (d2, n2) :: post)) fs =
      (none, (visitAll (pre ++ (d1, n1) :: (mid ++ (d2, n2) :: post)) fs).2) :=
    Prod.ext hnil rfl
  obtain ⟨a, _, ha⟩ := visitAll_append_ok hok
  obtain ⟨b, hv1, hb⟩ := visitAll_cons_ok ha
  rw [visit_file hf1] at hv1
  obtain ⟨_, _, _, data, _, hbs⟩ := generateFile_ok hv1
  obtain ⟨s, s1, hkeep, hv2, _⟩ := visitAll_ok_mem _ b _ hb (d2, n2) (by simp)
  simp only at hv2
  rw [visit_file hf2] at hv2
  obtain ⟨hnone, _⟩ := generateFile_ok hv2
  have hcwd : s.cwd = a.cwd := by rw [hkeep.1, hbs, FS.set_cwd]
  have hloc : nodeLoc s d2 n2 = nodeLoc a d1 n1 := by
    simp only [nodeLoc, hpath, FS.resolve_congr hcwd]
  have hex : b.ent (nodeLoc a d1 n1) ≠ none := by
    rw [hbs, FS.set_ent_self]
    simp
  rw [hloc] at hnone
  exact hkeep.ne_none hex hnone

/-- C3, amended (exclusive creation): when the description holds two file nodes
with the same joined path, `gotree.GenerateFromRoot` returns a non-nil error;
when every node before the second one was materialized without error, the
error is the file-creation error of the second node and nothing changes from
there; and once the first node has been written with its string content, the
file keeps that content to the end of the call. -/
theorem duplicate_file_path_fails (fs : FS) (root : String) (files : List File)
    (pre mid post : List (String × File)) (d1 d2 : String) (n1 n2 : File)
    (hnodes : nodesFiles root files = pre ++ (d1, n1) :: (mid ++ (d2, n2) :: post))
    (hf1 : strings.HasSuffixSlash n1.Path = false)
    (hf2 : strings.HasSuffixSlash n2.Path = false)
    (hpath : path.Join d1 n1.Path = path.Join d2 n2.Path) :
    (GenerateFromRoot root files fs).1 ≠ none ∧
    (∀ fs1 s : FS, root ≠ "" → createDir root fs = (none, fs1) →
      visitAll (pre ++ (d1, n1) :: mid) fs1 = (none, s) →
      GenerateFromRoot root files fs =
        (some (Error.cannotCreateFile (path.Join d2 n2.Path)), s)) ∧
    (∀ (fs1 s : FS) (C : String), root ≠ "" → createDir root fs = (none, fs1) →
      visitAll (pre ++ [(d1, n1)]) fs1 = (none, s) → n1.Content = Content.str C →
      (GenerateFromRoot root files fs).2.ent
        ((GenerateFromRoot root files fs).2.resolve (path.Join d1 n1.Path)) =
          some (Entry.file C)) := by
  have hfn1 : isFileNode n1 = true := by simp [isFileNode, hf1]
  have hfn2 : isFileNode n2 = true := by simp [isFileNode, hf2]
  refine ⟨?_, ?_, ?_⟩
  · intro hnil
    obtain ⟨_, fs1, _, hall⟩ := GenerateFromRoot_ok hnil
    rw [hnodes] at hall
    exact visitAll_duplicate hfn1 hfn2 hpath fs1 (by rw [hall])
  · intro fs1 s hroot hdir hpre
    rw [GenerateFromRoot_unfold hroot, hdir, hnodes]
    have hsplit : pre ++ (d1, n1) :: (mid ++ (d2, n2) :: post) =
        (pre ++ (d1, n1) :: mid) ++ (d2, n2) :: post := by simp
    simp only [hsplit, visitAll_append, hpre]
    obtain ⟨data, _, hex⟩ := visitAll_file_kept hpre (d := d1) (n := n1) (by simp) hfn1
    have hloc : s.ent (nodeLoc s d2 n2) ≠ none := by
      simp only [nodeLoc, ← hpath, hex]
      simp
    have hv : visit d2 n2 s = (some (Error.cannotCreateFile (path.Join d2 n2.Path)), s) := by
      rw [visit_file hfn2]
      exact generateFile_of_exists hloc
    rw [visitAll_cons_error post (by rw [hv]; simp), hv]
  · intro fs1 s C hroot hdir hpre hC
    obtain ⟨data, hb, hex⟩ := visitAll_file_kept hpre (d := d1) (n := n1) (by simp) hfn1
    rw [hC] at hb
    simp only [fileBytes, Option.some.injEq] at hb
    have hfinal : (GenerateFromRoot root files fs).2 =
        (visitAll (mid ++ (d2, n2) :: post) s).2 := by
      rw [GenerateFromRoot_unfold hroot, hdir, hnodes]
      have hsplit : pre ++ (d1, n1) :: (mid ++ (d2, n2) :: post) =
          (pre ++ [(d1, n1)]) ++ (mid ++ (d2, n2) :: post) := by simp
      simp only [hsplit, visitAll_append, hpre]
    have hkeep := visitAll_preserves (mid ++ (d2, n2) :: post) s
    rw [← hfinal] at hkeep
    rw [FS.resolve_congr hkeep.1]
    apply hkeep.2
    rw [hex, hb]

theorem duplicate_file_path_fails_witness :
    nodesFiles "r" dupFiles =
      [] ++ ("r", File.mk "a" (Content.str "x")) ::
        ([] ++ ("r", File.mk "a" (Content.str "y")) :: []) ∧
    strings.HasSuffixSlash "a" = false ∧
    (GenerateFromRoot "r" dupFiles demoFS).1 ≠ none ∧
    GenerateFromRoot "r" dupFiles demoFS =
      (some (Error.cannotCreateFile "r/a"),
        (visitAll [("r", File.mk "a" (Content.str "x"))] (createDir "r" demoFS).2).2) ∧
    (GenerateFromRoot "r" dupFiles demoFS).2.ent ["home", "r", "a"] = some (Entry.file "x") :=
  ⟨rfl, rfl,
   (duplicate_file_path_fails demoFS "r" dupFiles [] [] [] "r" "r"
      (File.mk "a" (Content.str "x")) (File.mk "a" (Content.str "y")) rfl rfl rfl rfl).1,
   (duplicate_file_path_fails demoFS "r" dupFiles [] [] [] "r" "r"
      (File.mk "a" (Content.str "x")) (File.mk "a" (Content.str "y")) rfl rfl rfl rfl).2.1
      _ _ (by decide) (Prod.ext (by decide) rfl) (Prod.ext (by decide) rfl),
   (duplicate_file_path_fails demoFS "r" dupFiles [] [] [] "r" "r"
      (File.mk "a" (Content.str "x")) (File.mk "a" (Content.str "y")) rfl rfl rfl rfl).2.2
      _ _ "x" (by decide) (Prod.ext (by decide) rfl) (Prod.ext (by decide) rfl) rfl⟩

/-- C3 as stated fails: the description holds two file nodes with the joined
path `r/a`, and the call returns the error of the directory node between them,
which is not a file-creation error. -/
theorem duplicate_file_path_counterexample :
    (nodesFiles "r" dupFilesBadDir)[0]? = some ("r", File.mk "a" (Content.str "x")) ∧
    (nodesFiles "r" dupFilesBadDir)[2]? = some ("r", File.mk "a" (Content.str "y")) ∧
    strings.HasSuffixSlash "a" = false ∧
    path.Join "r" "a" = "r/a" ∧
    (GenerateFromRoot "r" dupFilesBadDir demoFS).1 = some Error.dirContentInvalid :=
  ⟨rfl, rfl, rfl, by decide, by decide⟩

end gotree

/-! ## The destructive variant starts from a clean slate -/

namespace FS

end FS

namespace gotree

theorem visit_names {d : String} {n : File} {fs : FS} {q : Loc} {e : Entry}
    (hq : (visit d n fs).2.ent q = some e) (hn : fs.ent q = none) :
    fs.NamedBy d n.Path q := by
  cases hf : isFileNode n with
  | true =>
    have hp : strings.HasSuffixSlash n.Path = false := by simpa [isFileNode] using hf
    rw [visit_file hf] at hq
    simp only [FS.NamedBy, hp]
    have key : ∀ data : String,
        (fs.set (nodeLoc fs d n) (some (Entry.file data))).ent q = some e →
        q = fs.resolve (path.Join d n.Path) := by
      intro data h
      by_contra hne
      have hne1 : q ≠ nodeLoc fs d n := hne
      rw [FS.set_ent_ne fs _ _ hne1, hn] at h
      exact absurd h (by simp)
    rcases h : generateFile d n fs with ⟨_ | err, fs1⟩
    · obtain ⟨_, _, _, data, _, hfs⟩ := generateFile_ok h
      rw [h] at hq
      simp only [hfs] at hq
      simpa using key data hq
    · rw [h] at hq
      rcases generateFile_err h with ⟨_, hfs⟩ | ⟨_, _, _, _, _, hfs⟩
      · simp only [hfs, hn] at hq
        exact absurd hq (by simp)
      · simp only [hfs] at hq
        simpa using key "" hq
  | false =>
    have hp : strings.HasSuffixSlash n.Path = true := by simpa [isFileNode] using hf
    rw [visit_dir_state hf] at hq
    simp only [FS.NamedBy, hp, if_true]
    simp only [createDir] at hq
    cases h0 : os.MkdirAll fs (path.Join d n.Path) with
    | none =>
      rw [h0] at hq
      simp only [hn] at hq
      exact absurd hq (by simp)
    | some fs1 =>
      rw [h0] at hq
      have := ((os.mkdirAllRev_spec _ fs fs1 h0).2.2.1 q e hq hn).2
      rwa [List.reverse_reverse] at this

theorem NamedBy_congr {a b : FS} (hc : b.cwd = a.cwd) {d name : String} {q : Loc}
    (h : a.NamedBy d name q) : b.NamedBy d name q := by
  simpa only [FS.NamedBy, FS.resolve_congr hc] using h

/-- Whatever a sequence of visits returns, every entry that is new afterwards
lies at a location one of its nodes names. -/
theorem visitAll_names :
    ∀ (l : List (String × File)) (fs : FS) (q : Loc) (e : Entry),
      (visitAll l fs).2.ent q = some e → fs.ent q = none →
      ∃ x ∈ l, fs.NamedBy x.1 x.2.Path q
  | [], fs, q, e, hq, hn => by
    simp only [visitAll, hn] at hq
    exact absurd hq (by simp)
  | (d, n) :: rest, fs, q, e, hq, hn => by
    simp only [visitAll] at hq
    cases h1 : (visit d n fs).2.ent q with
    | some e1 => exact ⟨(d, n), by simp, visit_names h1 hn⟩
    | none =>
      have hp := visit_preserves d n fs
      rcases h : visit d n fs with ⟨_ | err, fs1⟩
      · rw [h] at hq h1 hp
        simp only at hq h1 hp
        obtain ⟨x, hx, hnm⟩ := visitAll_names rest fs1 q e hq h1
        exact ⟨x, List.mem_cons_of_mem _ hx, NamedBy_congr hp.1.symm hnm⟩
      · rw [h] at hq h1
        simp only at hq h1
        rw [h1] at hq
        exact absurd hq (by simp)

end gotree

namespace path

end path

namespace FS

end FS

namespace os

end os

namespace pop

end pop

/-! ## Fail-fast -/

namespace gotree

theorem generateFiles_fail_fast (dir : String) (n : File) (ys : List File) :
    ∀ (xs : List File) (fs s s1 : FS) (e : Error),
      generateFiles dir xs fs = (none, s) → generate dir n s = (some e, s1) →
      generateFiles dir (xs ++ n :: ys) fs = (some e, s1)
  | [], fs, s, s1, e, hxs, hn => by
    simp only [generateFiles, Prod.mk.injEq, true_and] at hxs
    subst hxs
    simp only [List.nil_append, generateFiles, hn]
  | x :: xs, fs, s, s1, e, hxs, hn => by
    simp only [generateFiles] at hxs
    simp only [List.cons_append, generateFiles]
    rcases h : generate dir x fs with ⟨_ | err, fs1⟩
    · rw [h] at hxs
      exact generateFiles_fail_fast dir n ys xs fs1 s s1 e hxs hn
    · rw [h] at hxs
      simp at hxs

theorem generate_dir_files {d p : String} (hp : strings.HasSuffixSlash p = true)
    (l : List File) {fs fs1 : FS} (hdir : createDir (path.Join d p) fs = (none, fs1)) :
    generate d (File.mk p (Content.files l)) fs = generateFiles (path.Join d p) l fs1 := by
  simp only [generate, generateDir, hp, if_true, hdir]

theorem GenerateFromRoot_files {root : String} (hroot : root ≠ "") (l : List File)
    {fs fs1 : FS} (hdir : createDir root fs = (none, fs1)) :
    GenerateFromRoot root l fs = generateFiles root l fs1 := by
  simp only [GenerateFromRoot, hroot, if_false, hdir]

/-- C10 (fail-fast without rollback): when the siblings `xs` of a list
`xs ++ [n] ++ ys` are materialized without error and `n` then fails, the loop
returns the error of `n` and the filesystem `n` left, the same as for the list
`xs ++ [n]`: nothing of `ys` is created, and everything that existed after `xs`
is still there.  This holds for the list passed to `gotree.GenerateFromRoot`
and for the list inside a directory node, and an error of a node at any depth
is what `GenerateFromRoot` returns once every node before it was visited
without error. -/
theorem fail_fast_no_rollback (fs fs1 s s1 : FS) (dir : String) (xs ys : List File) (n : File)
    (e : Error) (hxs : generateFiles dir xs fs1 = (none, s))
    (hn : generate dir n s = (some e, s1)) :
    (dir ≠ "" → createDir dir fs = (none, fs1) →
      GenerateFromRoot dir (xs ++ [n] ++ ys) fs = (some e, s1) ∧
      GenerateFromRoot dir (xs ++ [n]) fs = (some e, s1)) ∧
    (∀ d p : String, strings.HasSuffixSlash p = true → path.Join d p = dir →
      createDir dir fs = (none, fs1) →
      generate d (File.mk p (Content.files (xs ++ [n] ++ ys))) fs = (some e, s1) ∧
      generate d (File.mk p (Content.files (xs ++ [n]))) fs = (some e, s1)) ∧
    (∀ (root : String) (files : List File) (pre post : List (String × File)) (fs0 : FS),
      root ≠ "" → createDir root fs = (none, fs0) →
      nodesFiles root files = pre ++ nodes dir n ++ post → visitAll pre fs0 = (none, s) →
      GenerateFromRoot root files fs = (some e, s1)) ∧
    FS.Preserves fs1 s ∧ FS.Preserves s s1 := by
  have h1 : generateFiles dir (xs ++ [n] ++ ys) fs1 = (some e, s1) := by
    rw [List.append_assoc]
    exact generateFiles_fail_fast dir n ys xs fs1 s s1 e hxs hn
  have h2 : generateFiles dir (xs ++ [n]) fs1 = (some e, s1) :=
    generateFiles_fail_fast dir n [] xs fs1 s s1 e hxs hn
  refine ⟨?_, ?_, ?_, ?_, ?_⟩
  · intro hroot hdir
    rw [GenerateFromRoot_files hroot _ hdir, GenerateFromRoot_files hroot _ hdir]
    exact ⟨h1, h2⟩
  · intro d p hp hjoin hdir
    rw [← hjoin] at hdir
    rw [generate_dir_files hp _ hdir, generate_dir_files hp _ hdir, hjoin]
    exact ⟨h1, h2⟩
  · intro root files pre post fs0 hroot hdir hnodes hpre
    rw [GenerateFromRoot_unfold hroot, hdir, hnodes]
    simp only [List.append_assoc, visitAll_append, hpre]
    rw [← generate_eq_visitAll, hn]
  · have := visitAll_preserves (nodesFiles dir xs) fs1
    rwa [← generateFiles_eq_visitAll, hxs] at this
  · have := visitAll_preserves (nodes dir n) s
    rwa [← generate_eq_visitAll, hn] at this

theorem fail_fast_no_rollback_witness :
    generateFiles "r" [File.mk "a" (Content.str "x")] (createDir "r" demoFS).2 =
      (none, (generateFiles "r" [File.mk "a" (Content.str "x")] (createDir "r" demoFS).2).2) ∧
    GenerateFromRoot "r"
        ([File.mk "a" (Content.str "x")] ++ [File.mk "d/" (Content.str "bad")] ++
          [File.mk "b" (Content.str "y")]) demoFS =
      GenerateFromRoot "r"
        ([File.mk "a" (Content.str "x")] ++ [File.mk "d/" (Content.str "bad")]) demoFS ∧
    (GenerateFromRoot "r"
        ([File.mk "a" (Content.str "x")] ++ [File.mk "d/" (Content.str "bad")] ++
          [File.mk "b" (Content.str "y")]) demoFS).1 = some Error.dirContentInvalid ∧
    (GenerateFromRoot "r"
        ([File.mk "a" (Content.str "x")] ++ [File.mk "d/" (Content.str "bad")] ++
          [File.mk "b" (Content.str "y")]) demoFS).2.ent ["home", "r", "a"] =
      some (Entry.file "x") ∧
    (GenerateFromRoot "r"
        ([File.mk "a" (Content.str "x")] ++ [File.mk "d/" (Content.str "bad")] ++
          [File.mk "b" (Content.str "y")]) demoFS).2.ent ["home", "r", "b"] = none :=
  ⟨Prod.ext (by decide) rfl,
   ((fail_fast_no_rollback demoFS (createDir "r" demoFS).2
      (generateFiles "r" [File.mk "a" (Content.str "x")] (createDir "r" demoFS).2).2
      (generate "r" (File.mk "d/" (Content.str "bad"))
        (generateFiles "r" [File.mk "a" (Content.str "x")] (createDir "r" demoFS).2).2).2
      "r" [File.mk "a" (Content.str "x")] [File.mk "b" (Content.str "y")]
      (File.mk "d/" (Content.str "bad")) Error.dirContentInvalid
      (Prod.ext (by decide) rfl) (Prod.ext (by decide) rfl)).1 (by decide)
      (Prod.ext (by decide) rfl)).1.trans
    ((fail_fast_no_rollback demoFS (createDir "r" demoFS).2
      (generateFiles "r" [File.mk "a" (Content.str "x")] (createDir "r" demoFS).2).2
      (generate "r" (File.mk "d/" (Content.str "bad"))
        (generateFiles "r" [File.mk "a" (Content.str "x")] (createDir "r" demoFS).2).2).2
      "r" [File.mk "a" (Content.str "x")] [File.mk "b" (Content.str "y")]
      (File.mk "d/" (Content.str "bad")) Error.dirContentInvalid
      (Prod.ext (by decide) rfl) (Prod.ext (by decide) rfl)).1 (by decide)
      (Prod.ext (by decide) rfl)).2.symm,
   by decide, by decide, by decide⟩

end gotree

/-! ## Idempotent directory creation -/

namespace gotree

theorem createDir_of_dir {p : String} {fs : FS}
    (h : fs.ent (fs.resolve p) = some Entry.dir) : createDir p fs = (none, fs) := by
  simp only [createDir, os.MkdirAll]
  rw [os.mkdirAllRev_of_dir _ fs (by rw [List.reverse_reverse]; exact h)]

theorem generate_nil_dir_of_dir {d p : String} {fs : FS}
    (hp : strings.HasSuffixSlash p = true)
    (h : fs.ent (fs.resolve (path.Join d p)) = some Entry.dir) :
    generate d (File.mk p Content.nil) fs = (none, fs) := by
  simp only [generate, generateDir, hp, if_true, createDir_of_dir h]

theorem mem_nodesFiles_of_mem (root : String) {n : File} :
    ∀ {l : List File}, n ∈ l → (root, n) ∈ nodesFiles root l
  | [], h => by simp at h
  | x :: rest, h => by
    simp only [nodesFiles, List.mem_append]
    rcases List.mem_cons.mp h with h | h
    · subst h
      obtain ⟨r, hr⟩ := nodes_head root n
      left
      rw [hr]
      simp
    · exact Or.inr (mem_nodesFiles_of_mem root h)

/-- After a successful sequence of visits every directory node of the sequence
is a directory. -/
theorem visitAll_dir_kept {l : List (String × File)} {fs fs2 : FS}
    (h : visitAll l fs = (none, fs2)) {d : String} {n : File} (hmem : (d, n) ∈ l)
    (hf : isFileNode n = false) :
    fs2.ent (fs2.resolve (path.Join d n.Path)) = some Entry.dir := by
  obtain ⟨s, s1, _, hv, hkeep⟩ := visitAll_ok_mem l fs fs2 h (d, n) hmem
  simp only at hv
  have hmk := visit_dir_ok hf hv
  obtain ⟨hc, _, _, hd⟩ := os.mkdirAllRev_spec _ s s1 hmk
  rw [List.reverse_reverse] at hd
  have hcwd : fs2.cwd = s.cwd := by rw [hkeep.1, hc]
  rw [FS.resolve_congr hcwd]
  exact hkeep.2 _ _ hd

theorem generateFiles_nil_dirs (root : String) (fs : FS) :
    ∀ l : List File,
      (∀ n ∈ l, strings.HasSuffixSlash n.Path = true ∧ n.Content = Content.nil ∧
        fs.ent (fs.resolve (path.Join root n.Path)) = some Entry.dir) →
      generateFiles root l fs = (none, fs)
  | [], _ => by simp [generateFiles]
  | File.mk p c :: rest, h => by
    obtain ⟨hp, hc, hd⟩ := h (File.mk p c) (by simp)
    simp only [File.Path, File.Content] at hp hc hd
    subst hc
    simp only [generateFiles, generate_nil_dir_of_dir hp hd]
    exact generateFiles_nil_dirs root fs rest (fun n hn => h n (List.mem_cons_of_mem _ hn))

end gotree

/-- C8 (directory creation is idempotent): in both packages, materializing a
directory node with nil content whose location is already a directory returns
nil and leaves the filesystem as it is (in `pop` whatever the state of the
readers, which it leaves as they are); and a second `gotree.GenerateFromRoot`
with a description made only of directory nodes with nil content, after a first
one that returned nil, returns nil and changes nothing. -/
theorem directory_creation_idempotent :
    (∀ (fs : FS) (d p : String), strings.HasSuffixSlash p = true →
      fs.ent (fs.resolve (path.Join d p)) = some Entry.dir →
      gotree.generate d (gotree.File.mk p gotree.Content.nil) fs = (none, fs)) ∧
    (∀ (fs : FS) (rd : Readers) (d name : String), strings.HasSuffixSlash name = true →
      fs.ent (fs.resolve (path.Join d name)) = some Entry.dir →
      pop.generate d (pop.Item.mk name pop.Content.nil) fs rd = (none, fs, rd)) ∧
    (∀ (fs : FS) (root : String) (files : List gotree.File),
      (∀ n ∈ files, strings.HasSuffixSlash n.Path = true ∧ n.Content = gotree.Content.nil) →
      (gotree.GenerateFromRoot root files fs).1 = none →
      gotree.GenerateFromRoot root files (gotree.GenerateFromRoot root files fs).2 =
        (none, (gotree.GenerateFromRoot root files fs).2)) := by
  refine ⟨fun fs d p hp h => gotree.generate_nil_dir_of_dir hp h, ?_, ?_⟩
  · intro fs rd d name hp h
    simp only [pop.generate, pop.generateDir, hp, if_true, pop.createDir_eq,
      gotree.createDir_of_dir h]
  · intro fs root files hall hnil
    obtain ⟨hroot, fs1, hdir, hvis⟩ := gotree.GenerateFromRoot_ok hnil
    have hkeep := gotree.visitAll_preserves (gotree.nodesFiles root files) fs1
    rw [hvis] at hkeep
    simp only at hkeep
    have hmk := gotree.createDir_ok hdir
    obtain ⟨hc1, _, _, hd⟩ := os.mkdirAllRev_spec _ fs fs1 hmk
    rw [List.reverse_reverse] at hd
    have hcwd : (gotree.GenerateFromRoot root files fs).2.cwd = fs.cwd := by
      rw [hkeep.1, hc1]
    have hrootdir : (gotree.GenerateFromRoot root files fs).2.ent
        ((gotree.GenerateFromRoot root files fs).2.resolve root) = some Entry.dir := by
      rw [FS.resolve_congr hcwd]
      exact hkeep.2 _ _ hd
    rw [gotree.GenerateFromRoot_files hroot files (gotree.createDir_of_dir hrootdir)]
    apply gotree.generateFiles_nil_dirs
    intro n hn
    obtain ⟨hp, hc⟩ := hall n hn
    refine ⟨hp, hc, ?_⟩
    exact gotree.visitAll_dir_kept hvis (gotree.mem_nodesFiles_of_mem root hn)
      (by simp [gotree.isFileNode, hp])

theorem directory_creation_idempotent_witness :
    (strings.HasSuffixSlash "tmp/" = true ∧
      demoFS.ent (demoFS.resolve (path.Join "/" "tmp/")) = some Entry.dir ∧
      gotree.generate "/" (gotree.File.mk "tmp/" gotree.Content.nil) demoFS = (none, demoFS)) ∧
    (pop.generate "/" (pop.Item.mk "tmp/" pop.Content.nil) demoFS demoReaders =
      (none, demoFS, demoReaders)) ∧
    ((gotree.GenerateFromRoot "r"
        [gotree.File.mk "a/" gotree.Content.nil, gotree.File.mk "a/b/" gotree.Content.nil]
        demoFS).1 = none ∧
      gotree.GenerateFromRoot "r"
        [gotree.File.mk "a/" gotree.Content.nil, gotree.File.mk "a/b/" gotree.Content.nil]
        (gotree.GenerateFromRoot "r"
          [gotree.File.mk "a/" gotree.Content.nil, gotree.File.mk "a/b/" gotree.Content.nil]
          demoFS).2 =
      (none, (gotree.GenerateFromRoot "r"
          [gotree.File.mk "a/" gotree.Content.nil, gotree.File.mk "a/b/" gotree.Content.nil]
          demoFS).2)) :=
  ⟨⟨by decide, by decide, directory_creation_idempotent.1 demoFS "/" "tmp/" (by decide)
      (by decide)⟩,
   directory_creation_idempotent.2.1 demoFS demoReaders "/" "tmp/" (by decide) (by decide),
   ⟨by decide, directory_creation_idempotent.2.2 demoFS "r" _
      (fun n hn => by
        simp only [List.mem_cons, List.mem_singleton, List.not_mem_nil, or_false] at hn
        rcases hn with rfl | rfl <;> exact ⟨by decide, rfl⟩)
      (by decide)⟩⟩

/-! ## The empty description -/

namespace path

theorem mk_ne_empty {l : List Char} (h : l ≠ []) : String.mk l ≠ "" := by
  intro hc
  exact h (congrArg String.data hc)

theorem Clean_ne_empty (p : String) : Clean p ≠ "" := by
  simp only [Clean]
  split
  · exact mk_ne_empty (by simp)
  · split
    · decide
    · rename_i h
      exact mk_ne_empty h

theorem Join_ne_empty (a : String) {b : String} (hb : b ≠ "") : Join a b ≠ "" := by
  simp only [Join, hb, and_false, if_false]
  split
  · exact Clean_ne_empty b
  · exact Clean_ne_empty _

end path

namespace os

end os

namespace ioutil

/-- A successful `TempDir` made one new directory, inside an existing one, under
a non-empty name. -/
theorem TempDir_some (tmp pfx : String) (hpfx : pfx ≠ "") :
    ∀ (suffixes : List String) (fs fs1 : FS) (root : String),
      TempDir tmp pfx suffixes fs = some (root, fs1) →
      root ≠ "" ∧ fs.ent (fs.resolve root) = none ∧ fs.resolve root ≠ [] ∧
        fs.ent (fs.resolve root).dropLast = some Entry.dir ∧
        fs1 = fs.set (fs.resolve root) (some Entry.dir)
  | [], fs, fs1, root, h => by simp [TempDir] at h
  | s :: rest, fs, fs1, root, h => by
    simp only [TempDir, os.Mkdir] at h
    cases h0 : fs.ent (fs.resolve (path.Join tmp (pfx ++ s))) with
    | some e =>
      rw [h0] at h
      exact TempDir_some tmp pfx hpfx rest fs fs1 root h
    | none =>
      rw [h0] at h
      by_cases h1 : fs.resolve (path.Join tmp (pfx ++ s)) = []
      · simp [h1] at h
      · simp only [h1, if_false] at h
        cases h2 : fs.ent (fs.resolve (path.Join tmp (pfx ++ s))).dropLast with
        | none => rw [h2] at h; simp at h
        | some e =>
          rw [h2] at h
          cases e with
          | file data => simp at h
          | dir =>
            simp only [Option.some.injEq, Prod.mk.injEq] at h
            obtain ⟨hr, hfs⟩ := h
            subst hr
            refine ⟨path.Join_ne_empty tmp ?_, h0, h1, h2, hfs.symm⟩
            intro hc
            have hd := congrArg String.data hc
            simp only [String.data_append, List.append_eq_nil] at hd
            exact hpfx (String.ext hd.1)

end ioutil

namespace gotree

end gotree

theorem gotree.Generate_of_tempDir {tmp : String} {suffixes : List String} {fs fs1 : FS}
    {root : String} (files : List gotree.File)
    (h : ioutil.TempDir tmp "gotree" suffixes fs = some (root, fs1)) :
    gotree.Generate tmp suffixes files fs = (root, gotree.GenerateFromRoot root files fs1) := by
  simp only [gotree.Generate, h]

namespace gotree

/-- A directory node of a description materialized without error is a directory
afterwards; nothing is inside it when nothing was inside before, the root is
not inside it and no node of the description names a location inside it. -/
theorem GenerateFromRoot_dir_node {fs : FS} {root : String} {files : List File} {d : String}
    {n : File} (hnil : (GenerateFromRoot root files fs).1 = none)
    (hmem : (d, n) ∈ nodesFiles root files) (hp : strings.HasSuffixSlash n.Path = true) :
    (GenerateFromRoot root files fs).2.ent (fs.resolve (path.Join d n.Path)) = some Entry.dir ∧
    ((∀ name : String, fs.ent (fs.resolve (path.Join d n.Path) ++ [name]) = none) →
      (∀ name : String, ¬ (fs.resolve (path.Join d n.Path) ++ [name]) <+: fs.resolve root) →
      (∀ x ∈ nodesFiles root files, ∀ name : String,
        ¬ fs.NamedBy x.1 x.2.Path (fs.resolve (path.Join d n.Path) ++ [name])) →
      (GenerateFromRoot root files fs).2.EmptyDir (fs.resolve (path.Join d n.Path))) := by
  obtain ⟨hroot, fs1, hdir, hvis⟩ := GenerateFromRoot_ok hnil
  have hkeep := visitAll_preserves (nodesFiles root files) fs1
  rw [hvis] at hkeep
  simp only at hkeep
  have hmk := createDir_ok hdir
  obtain ⟨hc1, _, hnew, _⟩ := os.mkdirAllRev_spec _ fs fs1 hmk
  have hcwd : (GenerateFromRoot root files fs).2.cwd = fs.cwd := by rw [hkeep.1, hc1]
  have hd := visitAll_dir_kept hvis hmem (by simp [isFileNode, hp])
  rw [FS.resolve_congr hcwd] at hd
  refine ⟨hd, fun hbefore hrootout hnames => ⟨hd, fun name => ?_⟩⟩
  have h1 : fs1.ent (fs.resolve (path.Join d n.Path) ++ [name]) = none := by
    cases hc : fs1.ent (fs.resolve (path.Join d n.Path) ++ [name]) with
    | none => rfl
    | some e =>
      have := (hnew _ e hc (hbefore name)).2
      rw [List.reverse_reverse] at this
      exact absurd this (hrootout name)
  cases hc : (GenerateFromRoot root files fs).2.ent
      (fs.resolve (path.Join d n.Path) ++ [name]) with
  | none => rfl
  | some e =>
    have hfin : (visitAll (nodesFiles root files) fs1).2 = (GenerateFromRoot root files fs).2 := by
      rw [hvis]
    rw [← hfin] at hc
    obtain ⟨x, hx, hnm⟩ := visitAll_names _ fs1 _ e hc h1
    exact absurd (NamedBy_congr (b := fs) hc1.symm hnm) (hnames x hx name)

end gotree

/-- C7, amended (directory nodes with nil content): when `GenerateFromRoot` or
`Generate` returns nil, every directory node of the description (one with nil
content in particular) is afterwards a directory at its resolved path; it has
nothing inside when nothing was inside it before the call, the root is not
inside it and no node of the description names a location inside it (for
`GenerateFromRoot`: with a root that has no `..` element). -/
theorem nil_directory_node_exists :
    (∀ (fs : FS) (root : String) (files : List gotree.File) (d : String) (n : gotree.File),
      (gotree.GenerateFromRoot root files fs).1 = none →
      (d, n) ∈ gotree.nodesFiles root files → strings.HasSuffixSlash n.Path = true →
      (gotree.GenerateFromRoot root files fs).2.ent (fs.resolve (path.Join d n.Path)) =
        some Entry.dir ∧
      (path.NoParent root = true →
        (∀ name : String, fs.ent (fs.resolve (path.Join d n.Path) ++ [name]) = none) →
        (∀ name : String, ¬ (fs.resolve (path.Join d n.Path) ++ [name]) <+: fs.resolve root) →
        (∀ x ∈ gotree.nodesFiles root files, ∀ name : String,
          ¬ fs.NamedBy x.1 x.2.Path (fs.resolve (path.Join d n.Path) ++ [name])) →
        (gotree.GenerateFromRoot root files fs).2.EmptyDir (fs.resolve (path.Join d n.Path)))) ∧
    (∀ (fs : FS) (tmp : String) (suffixes : List String) (files : List gotree.File)
      (d : String) (n : gotree.File),
      (gotree.Generate tmp suffixes files fs).2.1 = none →
      (d, n) ∈ gotree.nodesFiles (gotree.Generate tmp suffixes files fs).1 files →
      strings.HasSuffixSlash n.Path = true →
      (gotree.Generate tmp suffixes files fs).2.2.ent (fs.resolve (path.Join d n.Path)) =
        some Entry.dir ∧
      ((∀ name : String, fs.ent (fs.resolve (path.Join d n.Path) ++ [name]) = none) →
        (∀ name : String, ¬ (fs.resolve (path.Join d n.Path) ++ [name]) <+:
          fs.resolve (gotree.Generate tmp suffixes files fs).1) →
        (∀ x ∈ gotree.nodesFiles (gotree.Generate tmp suffixes files fs).1 files,
          ∀ name : String,
          ¬ fs.NamedBy x.1 x.2.Path (fs.resolve (path.Join d n.Path) ++ [name])) →
        (gotree.Generate tmp suffixes files fs).2.2.EmptyDir
          (fs.resolve (path.Join d n.Path)))) := by
  refine ⟨fun fs root files d n hnil hmem hp =>
    ⟨(gotree.GenerateFromRoot_dir_node hnil hmem hp).1,
      fun _ => (gotree.GenerateFromRoot_dir_node hnil hmem hp).2⟩, ?_⟩
  intro fs tmp suffixes files d n hnil hmem hp
  cases ht : ioutil.TempDir tmp "gotree" suffixes fs with
  | none => simp [gotree.Generate, ht] at hnil
  | some r =>
    obtain ⟨root, fs1⟩ := r
    rw [gotree.Generate_of_tempDir files ht] at hnil hmem ⊢
    simp only at hnil hmem ⊢
    obtain ⟨_, hn, _, _, hfs1⟩ := ioutil.TempDir_some tmp "gotree" (by decide) suffixes fs fs1
      root ht
    have hres : ∀ p : String, fs1.resolve p = fs.resolve p := fun p => by rw [hfs1]; rfl
    have key := gotree.GenerateFromRoot_dir_node hnil hmem hp
    simp only [hres] at key
    refine ⟨key.1, fun hbefore hrootout hnames => key.2 ?_ hrootout ?_⟩
    · intro name
      rw [hfs1, FS.set_ent_ne _ _ _ (fun hc => hrootout name (by rw [hc])), hbefore name]
    · intro x hx name hnm
      exact hnames x hx name (gotree.NamedBy_congr (b := fs) (by rw [hfs1]; rfl) hnm)

theorem nil_directory_node_exists_witness :
    ((gotree.GenerateFromRoot "r" gotree.testTree demoFS).1 = none ∧
      (gotree.nodesFiles "r" gotree.testTree)[4]? =
        some ("r", gotree.File.mk "vendor/" gotree.Content.nil) ∧
      (gotree.GenerateFromRoot "r" gotree.testTree demoFS).2.ent ["home", "r", "vendor"] =
        some Entry.dir) ∧
    ((gotree.Generate "/tmp" ["1"] gotree.testTree demoFS).2.1 = none ∧
      (gotree.nodesFiles (gotree.Generate "/tmp" ["1"] gotree.testTree demoFS).1
        gotree.testTree)[4]? =
        some ("/tmp/gotree1", gotree.File.mk "vendor/" gotree.Content.nil) ∧
      (gotree.Generate "/tmp" ["1"] gotree.testTree demoFS).2.2.ent
        ["tmp", "gotree1", "vendor"] = some Entry.dir) ∧
    (gotree.GenerateFromRoot "r" [gotree.File.mk "v/" gotree.Content.nil] demoFS).2.EmptyDir
      ["home", "r", "v"] :=
  ⟨⟨by decide, rfl,
    (nil_directory_node_exists.1 demoFS "r" gotree.testTree "r"
      (gotree.File.mk "vendor/" gotree.Content.nil) (by decide)
      (List.getElem?_mem (n := 4) rfl) (by decide)).1⟩,
   ⟨by decide, rfl,
    (nil_directory_node_exists.2 demoFS "/tmp" ["1"] gotree.testTree "/tmp/gotree1"
      (gotree.File.mk "vendor/" gotree.Content.nil) (by decide)
      (List.getElem?_mem (n := 4) rfl) (by decide)).1⟩,
   (nil_directory_node_exists.1 demoFS "r" [gotree.File.mk "v/" gotree.Content.nil] "r"
      (gotree.File.mk "v/" gotree.Content.nil) (by decide)
      (List.getElem?_mem (n := 0) rfl) (by decide)).2 (by decide)
    (fun name => by
      show demoFS.ent (["home", "r", "v"] ++ [name]) = none
      simp [demoFS])
    (fun name h => by
      have h1 : (["home", "r", "v"] ++ [name] : Loc) <+: ["home", "r"] := h
      have := h1.length_le
      simp at this)
    (fun x hx name h => by
      have hx1 : x = ("r", gotree.File.mk "v/" gotree.Content.nil) := by
        have hx2 : x ∈ [("r", gotree.File.mk "v/" gotree.Content.nil)] := hx
        simpa using hx2
      subst hx1
      have h1 : (["home", "r", "v"] ++ [name] : Loc) <+: ["home", "r", "v"] := h
      have := h1.length_le
      simp at this)⟩

/-- C7 as stated fails: `Generate` returns nil for a description whose second
node makes a file inside the directory of the first node, a directory node with
nil content, so that directory is not empty afterwards. -/
theorem nil_directory_node_counterexample :
    (gotree.Generate "/tmp" ["1"] gotree.nilDirThenFile demoFS).2.1 = none ∧
    (gotree.Generate "/tmp" ["1"] gotree.nilDirThenFile demoFS).1 = "/tmp/gotree1" ∧
    (gotree.nodesFiles "/tmp/gotree1" gotree.nilDirThenFile)[0]? =
      some ("/tmp/gotree1", gotree.File.mk "a/" gotree.Content.nil) ∧
    demoFS.resolve (path.Join "/tmp/gotree1" "a/") = ["tmp", "gotree1", "a"] ∧
    (gotree.Generate "/tmp" ["1"] gotree.nilDirThenFile demoFS).2.2.ent
      ["tmp", "gotree1", "a", "b"] = some (Entry.file "") ∧
    ¬ (gotree.Generate "/tmp" ["1"] gotree.nilDirThenFile demoFS).2.2.EmptyDir
      ["tmp", "gotree1", "a"] :=
  ⟨by decide, by decide, rfl, by decide, by decide,
   fun h => absurd (h.2 "b") (by decide)⟩

/-! ## The order of siblings -/

namespace gotree

end gotree

namespace pop

theorem visitReaders_cons (x : String × Item) (l : List (String × Item)) :
    visitReaders (x :: l) = x.2.ownReaders ++ visitReaders l := by
  simp [visitReaders]

theorem visitReaders_append (l1 l2 : List (String × Item)) :
    visitReaders (l1 ++ l2) = visitReaders l1 ++ visitReaders l2 := by
  simp [visitReaders]

mutual
/-- The readers the visits of an entry may read are readers the entry holds. -/
theorem visitReaders_nodes (root : String) :
    ∀ item : Item, (visitReaders (nodes root item)).Sublist item.readers
  | .mk name content => by
    simp only [nodes, visitReaders_cons, Item.readers]
    cases content with
    | nil => simp [Item.ownReaders, Item.content, nodesContent, Content.readers, visitReaders]
    | str s => simp [Item.ownReaders, Item.content, nodesContent, Content.readers, visitReaders]
    | other => simp [Item.ownReaders, Item.content, nodesContent, Content.readers, visitReaders]
    | reader r =>
      simp [Item.ownReaders, Item.content, nodesContent, Content.readers, visitReaders]
    | corn l =>
      simp only [Item.ownReaders, Item.content, nodesContent, Content.readers, List.nil_append]
      by_cases hp : strings.HasSuffixSlash name = true
      · simp only [hp, if_true]
        exact visitReaders_nodesCorn (path.Join root name) l
      · simp only [hp]
        exact List.nil_sublist _

theorem visitReaders_nodesCorn (root : String) :
    ∀ l : List Item, (visitReaders (nodesCorn root l)).Sublist (readersOf l)
  | [] => by simp [nodesCorn, readersOf, visitReaders]
  | item :: rest => by
    simp only [nodesCorn, readersOf, visitReaders_append]
    exact (visitReaders_nodes root item).append (visitReaders_nodesCorn root rest)
end

end pop

